import Mathlib

/-! # Verification of the command-execution core (`core/executor.py`, `core/llm_client.py`)

Shallow embedding of the repository's orchestration loop, response parser,
safety gate, shell execution trace and conversation session.  Python strings
are modelled as `List Char` (with `String` wrappers at the API boundary),
`dict`-typed JSON data as an explicit `JVal` inductive, exceptions as
`Except`, and all side effects (printing, prompting, running subprocesses)
as an explicit event trace.  External collaborators that the spec scopes
out (the LiteLLM backend, the diagnostic tool implementations and the
safety predicate in `tools/validation.py`, the subprocess layer, stdin)
enter as function parameters.
-/

namespace CanYou

/-! ## Python `str` helpers: whitespace stripping, substring search, `str.split` -/

/-- Whitespace characters relevant to Python `str.strip()` on the texts
this program handles. -/
def isWsChar (c : Char) : Bool :=
  c = ' ' || c = '\t' || c = '\n' || c = '\r'

/-- Drop leading whitespace (the left half of Python `str.strip()`). -/
def skipWs : List Char → List Char
  | [] => []
  | c :: rest => if isWsChar c then skipWs rest else c :: rest

/-- Python `str.strip()`: drop whitespace from both ends. -/
def trimL (l : List Char) : List Char :=
  ((skipWs ((skipWs l).reverse)).reverse)

/-- Python `str.lower()` (character-wise; the confirmation answers this
program compares are ASCII). -/
def lowerS (s : String) : String :=
  String.mk (s.data.map Char.toLower)

example : lowerS "Y" = "y" := by decide
example : lowerS "no" = "no" := by decide

/-- Is the first list a prefix of the second (used for substring search,
mirroring how Python locates separator occurrences)? -/
def isPrefixOfL : List Char → List Char → Bool
  | [], _ => true
  | _ :: _, [] => false
  | a :: s, b :: t => a = b && isPrefixOfL s t

/-- Python `sep in s` (substring containment) for a non-empty separator. -/
def containsL (sep : List Char) : List Char → Bool
  | [] => isPrefixOfL sep []
  | c :: rest => isPrefixOfL sep (c :: rest) || containsL sep rest

/-- Fuel-driven worker for Python `str.split(sep)`: split at each leftmost
non-overlapping occurrence of `sep`.  `fuel` at least the input length makes
the result exact. -/
def splitOnF (sep : List Char) : Nat → List Char → List (List Char)
  | _, [] => [[]]
  | 0, l => [l]
  | fuel + 1, c :: cs =>
    if sep ≠ [] ∧ isPrefixOfL sep (c :: cs) then
      [] :: splitOnF sep fuel (List.drop (sep.length - 1) cs)
    else
      match splitOnF sep fuel cs with
      | [] => [[c]]
      | p :: ps => (c :: p) :: ps

/-- Python `s.split(sep)` for a non-empty separator. -/
def splitOnL (sep l : List Char) : List (List Char) :=
  splitOnF sep l.length l

example : splitOnL "x".data "axb".data = ["a".data, "b".data] := by decide
example : splitOnL "x".data "ax".data = ["a".data, "".data] := by decide
example : splitOnL "ab".data "zababz".data = ["z".data, "".data, "z".data] := by decide
example : containsL "ab".data "zab".data = true := by decide
example : containsL "ab".data "za".data = false := by decide
example : trimL " \n ab\n ".data = "ab".data := by decide

/-! ## JSON data (`json.loads` / `json.dumps` on the fragment this program exchanges)

`json.loads` is modelled by a fuel-driven recursive-descent parser over
`List Char` for the JSON fragment the program exchanges: objects, arrays,
strings with the common escapes, integer numbers, booleans and null.
(Float literals and `\u` escapes are outside the model; no claim touches
them.)  A failed parse is `none`, standing for the raised `JSONDecodeError`. -/

/-- A JSON value as produced by `json.loads`.  Objects keep their field
order; lookup takes the last binding, matching `dict` construction where a
repeated key overwrites the earlier one. -/
inductive JVal where
  | null : JVal
  | bool (b : Bool) : JVal
  | num (n : Int) : JVal
  | str (s : String) : JVal
  | arr (elems : List JVal) : JVal
  | obj (fields : List (String × JVal)) : JVal

/-- Resolution of a JSON string escape `\c`. -/
def unescapeChar (c : Char) : Option Char :=
  if c = '"' then some '"'
  else if c = '\\' then some '\\'
  else if c = '/' then some '/'
  else if c = 'n' then some '\n'
  else if c = 't' then some '\t'
  else if c = 'r' then some '\r'
  else if c = 'b' then some (Char.ofNat 8)
  else if c = 'f' then some (Char.ofNat 12)
  else none

mutual

/-- Parse the body of a JSON string literal (the opening quote already
consumed), returning the decoded characters and the input after the closing
quote.  Raw control characters are rejected, as in strict-mode `json.loads`. -/
def parseStrBody : List Char → Option (List Char × List Char)
  | [] => none
  | c :: rest =>
    if c = '"' then some ([], rest)
    else if c = '\\' then parseEscTail rest
    else if c.toNat < 32 then none
    else
      match parseStrBody rest with
      | some (s, r) => some (c :: s, r)
      | none => none

/-- Continue a string-literal body right after a backslash. -/
def parseEscTail : List Char → Option (List Char × List Char)
  | [] => none
  | e :: rest2 =>
    match unescapeChar e with
    | none => none
    | some ch =>
      match parseStrBody rest2 with
      | some (s, r) => some (ch :: s, r)
      | none => none

end

/-- Consume a run of decimal digits onto an accumulator. -/
def parseDigitsAux : List Char → Nat → Nat × List Char
  | [], acc => (acc, [])
  | c :: rest, acc =>
    if c.isDigit then parseDigitsAux rest (acc * 10 + (c.toNat - 48)) else (acc, c :: rest)

/-- Parse at least one decimal digit. -/
def parseNat1 : List Char → Option (Nat × List Char)
  | [] => none
  | c :: rest =>
    if c.isDigit then some (parseDigitsAux rest (c.toNat - 48)) else none

mutual

/-- Parse one JSON value, skipping leading whitespace; fuel bounds the
recursion depth and is ample whenever it exceeds twice the input length. -/
def parseVal : Nat → List Char → Option (JVal × List Char)
  | 0, _ => none
  | fuel + 1, l =>
    match skipWs l with
    | 'n' :: 'u' :: 'l' :: 'l' :: rest => some (.null, rest)
    | 't' :: 'r' :: 'u' :: 'e' :: rest => some (.bool true, rest)
    | 'f' :: 'a' :: 'l' :: 's' :: 'e' :: rest => some (.bool false, rest)
    | '"' :: rest =>
      match parseStrBody rest with
      | some (s, r) => some (.str (String.mk s), r)
      | none => none
    | '[' :: rest =>
      match skipWs rest with
      | ']' :: r => some (.arr [], r)
      | r =>
        match parseArrElems fuel r with
        | some (xs, r2) => some (.arr xs, r2)
        | none => none
    | '\x7b' :: rest =>
      match skipWs rest with
      | '\x7d' :: r => some (.obj [], r)
      | r =>
        match parseObjFields fuel r with
        | some (fs, r2) => some (.obj fs, r2)
        | none => none
    | '-' :: rest =>
      match parseNat1 rest with
      | some (n, r) => some (.num (-(n : Int)), r)
      | none => none
    | c :: rest =>
      if c.isDigit then
        match parseNat1 (c :: rest) with
        | some (n, r) => some (.num (n : Int), r)
        | none => none
      else none
    | [] => none

/-- Parse the elements of a non-empty JSON array up to and including the
closing bracket. -/
def parseArrElems : Nat → List Char → Option (List JVal × List Char)
  | 0, _ => none
  | fuel + 1, l =>
    match parseVal fuel l with
    | none => none
    | some (v, rest) =>
      match skipWs rest with
      | ',' :: r =>
        match parseArrElems fuel r with
        | some (xs, r2) => some (v :: xs, r2)
        | none => none
      | ']' :: r => some ([v], r)
      | _ => none

/-- Parse the fields of a non-empty JSON object up to and including the
closing brace. -/
def parseObjFields : Nat → List Char → Option (List (String × JVal) × List Char)
  | 0, _ => none
  | fuel + 1, l =>
    match skipWs l with
    | '"' :: rest =>
      match parseStrBody rest with
      | none => none
      | some (k, rest2) =>
        match skipWs rest2 with
        | ':' :: rest3 =>
          match parseVal fuel rest3 with
          | none => none
          | some (v, rest4) =>
            match skipWs rest4 with
            | ',' :: r =>
              match parseObjFields fuel r with
              | some (fs, r2) => some ((String.mk k, v) :: fs, r2)
              | none => none
            | '\x7d' :: r => some ([(String.mk k, v)], r)
            | _ => none
        | _ => none
    | _ => none

end

/-- `json.loads` on a character list: exactly one JSON value, possibly
surrounded by whitespace; anything else fails (`none`). -/
def jsonParseL (l : List Char) : Option JVal :=
  match parseVal (2 * l.length + 2) l with
  | some (v, rest) => if skipWs rest = [] then some v else none
  | none => none

/-- `json.loads` on a Python string. -/
def jsonParse (s : String) : Option JVal :=
  jsonParseL s.data

example : jsonParse "null" = some JVal.null := rfl
example : jsonParse " \x7b \x7d " = some (JVal.obj []) := rfl
example : jsonParse "[true, -12, \"a\"]"
    = some (JVal.arr [JVal.bool true, JVal.num (-12), JVal.str "a"]) := rfl
example : jsonParse "\x7b\"a\": [1], \"b\": \"x\\n\"\x7d"
    = some (JVal.obj [("a", JVal.arr [JVal.num 1]), ("b", JVal.str "x\n")]) := rfl
example : jsonParse "oops" = none := rfl
example : jsonParse "\x7b\"a\": 1" = none := rfl
example : jsonParse "1 2" = none := rfl

/-- Escape one character for a JSON string literal (`json.dumps`). -/
def escChar (c : Char) : List Char :=
  if c = '"' then ['\\', '"']
  else if c = '\\' then ['\\', '\\']
  else if c = '\n' then ['\\', 'n']
  else if c = '\t' then ['\\', 't']
  else if c = '\r' then ['\\', 'r']
  else [c]

/-- Escape a character list for a JSON string literal. -/
def escStr : List Char → List Char
  | [] => []
  | c :: rest => escChar c ++ escStr rest

mutual

/-- `json.dumps` rendering of a value. -/
def dumpsV : JVal → List Char
  | .null => "null".data
  | .bool true => "true".data
  | .bool false => "false".data
  | .num n => (toString n).data
  | .str s => '"' :: escStr s.data ++ ['"']
  | .arr xs => '[' :: dumpsElems xs ++ [']']
  | .obj fs => '\x7b' :: dumpsFields fs ++ ['\x7d']

/-- Render array elements with the default `", "` separator. -/
def dumpsElems : List JVal → List Char
  | [] => []
  | [x] => dumpsV x
  | x :: y :: xs => dumpsV x ++ ',' :: ' ' :: dumpsElems (y :: xs)

/-- Render object fields with the default `", "` and `": "` separators. -/
def dumpsFields : List (String × JVal) → List Char
  | [] => []
  | [(k, v)] => '"' :: escStr k.data ++ '"' :: ':' :: ' ' :: dumpsV v
  | (k, v) :: f :: fs =>
    '"' :: escStr k.data ++ '"' :: ':' :: ' ' :: dumpsV v ++ ',' :: ' ' :: dumpsFields (f :: fs)

end

/-- `json.dumps` on a value, as a Python string. -/
def dumpsS (v : JVal) : String :=
  String.mk (dumpsV v)

example : dumpsS (JVal.obj [("error", JVal.str "boom")]) = "\x7b\"error\": \"boom\"\x7d" := rfl

/-! ## Response Parser (`CommandExecutor._parse_llm_response`, executor.py 244-259)

The Python code tries, in order: the first ```` ```json ````-labelled fenced
block, then the first anonymous ```` ``` ```` fenced block, then the whole
text; any failure anywhere is swallowed by the bare `except` and yields
`None`. -/

/-- The ```` ```json ```` fence opener. -/
def fenceJson : List Char := "```json".data

/-- The plain ```` ``` ```` fence marker. -/
def fenceMark : List Char := "```".data

/-- `_parse_llm_response` on a character list. -/
def parse_llm_responseL (content : List Char) : Option JVal :=
  if containsL fenceJson content then
    jsonParseL (trimL ((splitOnL fenceMark ((splitOnL fenceJson content).getD 1 [])).getD 0 []))
  else if containsL fenceMark content then
    jsonParseL (trimL ((splitOnL fenceMark ((splitOnL fenceMark content).getD 1 [])).getD 0 []))
  else
    jsonParseL content

/-- `_parse_llm_response` on a Python string. -/
def parse_llm_response (content : String) : Option JVal :=
  parse_llm_responseL content.data

/-- The candidate text handed to `json.loads` by the stage that applies to
`content` (the text between the selected fences, stripped, or the whole
text). -/
def candidateOf (content : List Char) : List Char :=
  if containsL fenceJson content then
    trimL ((splitOnL fenceMark ((splitOnL fenceJson content).getD 1 [])).getD 0 [])
  else if containsL fenceMark content then
    trimL ((splitOnL fenceMark ((splitOnL fenceMark content).getD 1 [])).getD 0 [])
  else
    content

example : parse_llm_response "```json\n\x7b\"a\": 1\x7d\n```" = some (JVal.obj [("a", JVal.num 1)]) := rfl
example : parse_llm_response "text ```\n\x7b\"a\": 1\x7d\n``` more" = some (JVal.obj [("a", JVal.num 1)]) := rfl
example : parse_llm_response " \x7b\"a\": 1\x7d " = some (JVal.obj [("a", JVal.num 1)]) := rfl
example : parse_llm_response "no block here" = none := rfl

/-! ## Command Plan (the parsed `dict` as consumed by `_execute_commands`) -/

/-- The Command Plan of the spec data model: the four fields
`_execute_commands` extracts from the parsed response (executor.py 263-266). -/
structure CommandPlan where
  commands : List String
  explanation : String
  warnings : List String
  requires_confirmation : Bool
  deriving DecidableEq

/-- Python truthiness of a JSON value (`if explanation:`,
`if requires_confirmation and ...`). -/
def jTruthy : JVal → Bool
  | .null => false
  | .bool b => b
  | .num n => n != 0
  | .str s => s != ""
  | .arr [] => false
  | .arr (_ :: _) => true
  | .obj [] => false
  | .obj (_ :: _) => true

/-- `dict` lookup on a parsed-JSON field list: a repeated key was
overwritten during `json.loads`, so the last binding wins. -/
def lookupLast (fields : List (String × JVal)) (key : String) : Option JVal :=
  match fields with
  | [] => none
  | (k, v) :: rest =>
    match lookupLast rest key with
    | some r => some r
    | none => if k = key then some v else none

/-- `result.get(key, default)`. -/
def jGetD (fields : List (String × JVal)) (key : String) (d : JVal) : JVal :=
  (lookupLast fields key).getD d

/-- View a JSON value as the string the program displays or runs; plans
produced by the model carry strings here. -/
def asString : JVal → String
  | .str s => s
  | v => dumpsS v

/-- View a JSON value as a list of strings.  An array maps its elements; a
string iterates its characters (Python iteration); other values are not
iterable in Python (the loop would raise) and are modelled as the empty
list, a case no claim exercises. -/
def asStringList : JVal → List String
  | .arr xs => xs.map asString
  | .str s => s.data.map (fun c => String.mk [c])
  | _ => []

/-- The four `result.get(...)` extractions of executor.py 263-266, with the
defaults for absent fields. -/
def planFromFields (fields : List (String × JVal)) : CommandPlan where
  commands := asStringList (jGetD fields "commands" (.arr []))
  explanation := asString (jGetD fields "explanation" (.str ""))
  warnings := asStringList (jGetD fields "warnings" (.arr []))
  requires_confirmation := jTruthy (jGetD fields "requires_confirmation" (.bool true))

/-! ## Shell execution (`CommandExecutor._execute_commands`, executor.py 261-331)

Side effects become an explicit event trace.  The Safety Validator
(`tools.validation.validate_command_safety`, an external collaborator whose
implementation is outside `src/core`), the subprocess layer and stdin enter
as function parameters. -/

/-- The Safety Verdict of the spec data model: the `dict` returned by
`validate_command_safety`. -/
structure SafetyVerdict where
  safe : Bool
  reason : String

/-- Outcome of one `subprocess.run` invocation: normal completion with an
exit code and captured output, the 300-second timeout
(`subprocess.TimeoutExpired`), or some other raised error — the three
distinct report branches of executor.py 318-331. -/
inductive RunOutcome where
  | completed (exitCode : Int) (stdout stderr : String)
  | timedOut
  | raised (message : String)
  deriving DecidableEq

/-- Observable steps of `_execute_commands`, in program order. -/
inductive Event where
  | shownExplanation (text : String)
  | shownWarnings (warnings : List String)
  | listedCommands (commands : List String)
  | dryRunNotice
  | checkedSafety (cmd : String)
  | safetyFailed (reason : String)
  | promptedConfirmation
  | cancelledByUser
  | startedExecution
  | ran (cmd : String) (outcome : RunOutcome)
  deriving DecidableEq

/-- The safety gate (executor.py 286-291): validate each command in order;
stop at the first unsafe one.  Returns the trace of the loop and whether
every command passed. -/
def validatePhase (validate : String → SafetyVerdict) : List String → List Event × Bool
  | [] => ([], true)
  | c :: rest =>
    let v := validate c
    if v.safe then
      let r := validatePhase validate rest
      (.checkedSafety c :: r.1, r.2)
    else
      ([.checkedSafety c, .safetyFailed v.reason], false)

/-- The reason of the first command the Safety Validator rejects, if any. -/
def firstUnsafeReason (validate : String → SafetyVerdict) : List String → Option String
  | [] => none
  | c :: rest =>
    if (validate c).safe then firstUnsafeReason validate rest
    else some (validate c).reason

/-- The execution loop (executor.py 300-331): every command is attempted in
order; each outcome — success, non-zero exit, timeout, other error — is
reported for its own command and never stops the loop. -/
def execPhase (runCommand : String → RunOutcome) (cmds : List String) : List Event :=
  .startedExecution :: cmds.map (fun c => .ran c (runCommand c))

/-- The plan display of executor.py 268-280: explanation if truthy,
warnings if non-empty, then the numbered command list (always). -/
def renderEvents (fields : List (String × JVal)) : List Event :=
  (if jTruthy (jGetD fields "explanation" (.str "")) then
    [.shownExplanation (asString (jGetD fields "explanation" (.str "")))]
  else []) ++
  (if jTruthy (jGetD fields "warnings" (.arr [])) then
    [.shownWarnings (asStringList (jGetD fields "warnings" (.arr [])))]
  else []) ++
  [.listedCommands (planFromFields fields).commands]

/-- `_execute_commands` (executor.py 261-331).  `answer` is what `input()`
would read at the confirmation prompt; `auto_confirm` and `dry_run` are the
keyword flags. -/
def execute_commands (validate : String → SafetyVerdict) (runCommand : String → RunOutcome)
    (answer : String) (fields : List (String × JVal)) (auto_confirm dry_run : Bool) :
    List Event :=
  let p := planFromFields fields
  renderEvents fields ++
    (if dry_run then [.dryRunNotice]
    else
      let vr := validatePhase validate p.commands
      if vr.2 then
        vr.1 ++
          (if p.requires_confirmation && !auto_confirm then
            .promptedConfirmation ::
              (if lowerS answer ≠ "y" then [.cancelledByUser]
              else execPhase runCommand p.commands)
          else execPhase runCommand p.commands)
      else vr.1)

/-- The commands a trace actually ran, with their outcomes, in order. -/
def ranEvents (evs : List Event) : List (String × RunOutcome) :=
  evs.filterMap (fun e => match e with | .ran c o => some (c, o) | _ => none)

/-- The commands a trace submitted to the Safety Validator, in order. -/
def checkedEvents (evs : List Event) : List String :=
  evs.filterMap (fun e => match e with | .checkedSafety c => some c | _ => none)

/-! ## Conversation Session (`LLMClient`, llm_client.py) -/

/-- A Tool Call Request: correlation id, tool name, and the raw JSON text
of the argument mapping as the backend transmitted it. -/
structure ToolCall where
  id : String
  name : String
  arguments : String
  deriving DecidableEq

/-- One turn of the Conversation History. -/
inductive Msg where
  | system (content : String)
  | user (content : String)
  | assistant (content : String) (tool_calls : List ToolCall)
  | tool (tool_call_id : String) (name : String) (content : String)
  deriving DecidableEq

/-- The assistant message inside a backend response. -/
structure AssistantMsg where
  content : Option String
  tool_calls : List ToolCall
  deriving DecidableEq

/-- One choice of a backend response. -/
structure Choice where
  message : AssistantMsg
  deriving DecidableEq

/-- A chat-completion response from the backend. -/
structure ModelResponse where
  choices : List Choice
  deriving DecidableEq

/-- `LLMClient.chat` (llm_client.py 34-80).  `backend` is
`litellm.completion`; `Except.error` is a raised exception.  Returns the
conversation history after the call together with the result: the history
is untouched when the backend raises, and gains the user turn and then the
assistant turn once the backend has answered (the user turn alone if
reading `choices[0]` fails, which the `except` also converts into the
transport error). -/
def chat (hist : List Msg) (user_message : String) (system_prompt : String)
    (backend : List Msg → Except String ModelResponse) :
    List Msg × Except String ModelResponse :=
  let messages := Msg.system system_prompt :: hist ++ [Msg.user user_message]
  match backend messages with
  | .error e => (hist, .error ("LiteLLM error: " ++ e))
  | .ok response =>
    let hist1 := hist ++ [Msg.user user_message]
    match response.choices with
    | [] => (hist1, .error ("LiteLLM error: list index out of range"))
    | choice :: _ =>
      (hist1 ++ [Msg.assistant (choice.message.content.getD "") choice.message.tool_calls],
        .ok response)

/-- `LLMClient.add_tool_response` (llm_client.py 82-89): append one tool
turn whose content is the serialized result. -/
def add_tool_response (hist : List Msg) (tool_call_id function_name : String)
    (result : JVal) : List Msg :=
  hist ++ [Msg.tool tool_call_id function_name (dumpsS result)]

/-! ## Tool Dispatch (`CommandExecutor._handle_tool_calls`, executor.py 209-242) -/

/-- A Python exception escaping the embedded code. -/
inductive PyExn where
  | jsonDecodeError (doc : String)
  | typeError (message : String)
  | attributeError (message : String)
  | indexError (message : String)
  deriving DecidableEq

/-- A registered diagnostic tool: applied to the decoded argument mapping,
it returns a result or raises (`Except.error`), covering both a bad
argument shape (`TypeError` from `**arguments`) and a failure inside the
tool body. -/
def ToolFn := JVal → Except String JVal

/-- Dispatch of a single Tool Call Request (the body of the `for` loop at
executor.py 211-242).  Note the order from the source: the argument text is
decoded by `json.loads` at line 213, *outside* the `try` that starts at
line 223, so a decode failure propagates; an unknown tool name only prints
a warning and appends nothing. -/
def handle_tool_call (registry : String → Option ToolFn) (hist : List Msg) (tc : ToolCall) :
    Except PyExn (List Msg) :=
  match jsonParse tc.arguments with
  | none => .error (.jsonDecodeError tc.arguments)
  | some args =>
    match registry tc.name with
    | some f =>
      match f args with
      | .ok result => .ok (add_tool_response hist tc.id tc.name result)
      | .error e => .ok (add_tool_response hist tc.id tc.name (.obj [("error", .str e)]))
    | none => .ok hist

/-- `_handle_tool_calls`: dispatch each request in order, threading the
conversation history. -/
def handle_tool_calls (registry : String → Option ToolFn) (hist : List Msg) :
    List ToolCall → Except PyExn (List Msg)
  | [] => .ok hist
  | tc :: rest =>
    match handle_tool_call registry hist tc with
    | .error e => .error e
    | .ok hist1 => handle_tool_calls registry hist1 rest

/-! ## Orchestration Loop (`CommandExecutor.execute_quick_task`, executor.py 153-207) -/

/-- `'commands' in result` for a truthy parsed response.  Python membership:
key lookup for a `dict`, element search for a `list`, substring search for
a `str`; other values raise `TypeError`. -/
def hasCommandsKey : JVal → Except PyExn Bool
  | .obj fields => .ok (fields.any (fun kv => kv.1 = "commands"))
  | .arr xs => .ok (xs.any (fun v => match v with | .str s => s = "commands" | _ => false))
  | .str s => .ok (containsL "commands".data s.data)
  | _ => .error (.typeError "argument of type is not iterable")

/-- Terminal states of one `execute_quick_task` run. -/
inductive TaskOutcome where
  | llmError (message : String)
  | planExecuted (events : List Event)
  | answered (content : String)
  | maxIterationsReached
  deriving DecidableEq

/-- The external collaborators of one task run: the tool registry
(`TOOL_FUNCTIONS`), the Safety Validator, the subprocess layer, stdin, the
system prompt and the context message built from the Platform Context. -/
structure ExecEnv where
  registry : String → Option ToolFn
  validate : String → SafetyVerdict
  runCommand : String → RunOutcome
  answer : String
  system_prompt : String
  context : String

/-- The `while iteration < self.max_iterations` loop of executor.py
176-205, with the remaining iteration budget as fuel.  `resp i` is what the
backend returns for the chat call of round `i` (rounds are numbered from 1,
as `iteration` is in the source). -/
def quickTaskLoop (env : ExecEnv) (resp : Nat → Except String ModelResponse)
    (auto_confirm dry_run : Bool) (hist : List Msg) (iteration : Nat) :
    Nat → Except PyExn TaskOutcome
  | 0 => .ok .maxIterationsReached
  | fuel + 1 =>
    let userMsg := if iteration = 0 then env.context else "Continue with the task."
    let step := chat hist userMsg env.system_prompt (fun _ => resp (iteration + 1))
    match step.2 with
    | .error e => .ok (.llmError e)
    | .ok response =>
      match response.choices with
      | [] => .error (.indexError "list index out of range")
      | choice :: _ =>
        let m := choice.message
        if m.tool_calls ≠ [] then
          match handle_tool_calls env.registry step.1 m.tool_calls with
          | .error e => .error e
          | .ok hist2 => quickTaskLoop env resp auto_confirm dry_run hist2 (iteration + 1) fuel
        else
          match m.content with
          | none => quickTaskLoop env resp auto_confirm dry_run step.1 (iteration + 1) fuel
          | some content =>
            if content = "" then
              quickTaskLoop env resp auto_confirm dry_run step.1 (iteration + 1) fuel
            else
              match parse_llm_response content with
              | none => .ok (.answered content)
              | some result =>
                if jTruthy result then
                  match hasCommandsKey result with
                  | .error e => .error e
                  | .ok true =>
                    match result with
                    | .obj fields =>
                      .ok (.planExecuted
                        (execute_commands env.validate env.runCommand env.answer fields
                          auto_confirm dry_run))
                    | _ => .error (.attributeError "object has no attribute get")
                  | .ok false => .ok (.answered content)
                else .ok (.answered content)

/-- `self.max_iterations = 10` (executor.py 151). -/
def max_iterations : Nat := 10

/-- `execute_quick_task` (executor.py 153-207): run the loop with the full
iteration budget on an empty conversation. -/
def execute_quick_task (env : ExecEnv) (resp : Nat → Except String ModelResponse)
    (auto_confirm dry_run : Bool) : Except PyExn TaskOutcome :=
  quickTaskLoop env resp auto_confirm dry_run [] 0 max_iterations

/-! ## Helper lemmas on the execution trace -/

theorem ranEvents_append (a b : List Event) : ranEvents (a ++ b) = ranEvents a ++ ranEvents b := by
  simp [ranEvents]

theorem checkedEvents_append (a b : List Event) :
    checkedEvents (a ++ b) = checkedEvents a ++ checkedEvents b := by
  simp [checkedEvents]

theorem ranEvents_renderEvents (fields : List (String × JVal)) :
    ranEvents (renderEvents fields) = [] := by
  simp only [renderEvents, ranEvents, List.filterMap_append]
  split <;> split <;> simp [List.filterMap]

theorem checkedEvents_renderEvents (fields : List (String × JVal)) :
    checkedEvents (renderEvents fields) = [] := by
  simp only [renderEvents, checkedEvents, List.filterMap_append]
  split <;> split <;> simp [List.filterMap]

theorem prompt_not_mem_renderEvents (fields : List (String × JVal)) :
    Event.promptedConfirmation ∉ renderEvents fields := by
  simp only [renderEvents]
  split <;> split <;> simp

theorem started_not_mem_renderEvents (fields : List (String × JVal)) :
    Event.startedExecution ∉ renderEvents fields := by
  simp only [renderEvents]
  split <;> split <;> simp

theorem listed_mem_renderEvents (fields : List (String × JVal)) :
    Event.listedCommands (planFromFields fields).commands ∈ renderEvents fields := by
  simp only [renderEvents]
  split <;> split <;> simp

/-! ## C10 and C9 -/

/-- C10: for every user message sent through `LLMClient.chat`, a raised
backend call re-raises a transport error (`"LiteLLM error: ..."`) with the
conversation history untouched, while a successful backend response appends
exactly the user turn followed by the assistant turn. -/
theorem chat_history_atomic (hist : List Msg) (u sp e : String) (c : Choice)
    (cs : List Choice) :
    chat hist u sp (fun _ => .error e) = (hist, .error ("LiteLLM error: " ++ e)) ∧
    chat hist u sp (fun _ => .ok ⟨c :: cs⟩) =
      (hist ++ [Msg.user u, Msg.assistant (c.message.content.getD "") c.message.tool_calls],
        .ok ⟨c :: cs⟩) := by
  constructor
  · rfl
  · simp [chat]

/-- C9: with `dry_run=True`, `_execute_commands` renders the plan
(explanation, warnings, numbered commands) and stops: the whole trace is the
rendering plus the dry-run notice, the Safety Validator is never consulted,
no confirmation prompt occurs, and no command is invoked.  The function is
pure, so repeating it on the same inputs yields the same mutation-free
trace. -/
theorem dry_run_renders_and_stops (validate : String → SafetyVerdict)
    (runCommand : String → RunOutcome) (answer : String)
    (fields : List (String × JVal)) (auto_confirm : Bool) :
    execute_commands validate runCommand answer fields auto_confirm true =
      renderEvents fields ++ [Event.dryRunNotice] ∧
    Event.listedCommands (planFromFields fields).commands ∈
      execute_commands validate runCommand answer fields auto_confirm true ∧
    checkedEvents (execute_commands validate runCommand answer fields auto_confirm true) = [] ∧
    ranEvents (execute_commands validate runCommand answer fields auto_confirm true) = [] ∧
    Event.promptedConfirmation ∉
      execute_commands validate runCommand answer fields auto_confirm true := by
  have h : execute_commands validate runCommand answer fields auto_confirm true =
      renderEvents fields ++ [Event.dryRunNotice] := by
    simp [execute_commands]
  refine ⟨h, ?_, ?_, ?_, ?_⟩
  · rw [h]
    exact List.mem_append_left _ (listed_mem_renderEvents fields)
  · rw [h, checkedEvents_append, checkedEvents_renderEvents]
    simp [checkedEvents]
  · rw [h, ranEvents_append, ranEvents_renderEvents]
    simp [ranEvents]
  · rw [h]
    intro hmem
    rcases List.mem_append.mp hmem with h1 | h1
    · exact prompt_not_mem_renderEvents fields h1
    · simp at h1

/-! ## Safety gate lemmas -/

theorem ranEvents_map_checked (cmds : List String) :
    ranEvents (cmds.map Event.checkedSafety) = [] := by
  simp [ranEvents]

theorem prompt_not_mem_map_checked (cmds : List String) :
    Event.promptedConfirmation ∉ cmds.map Event.checkedSafety := by
  simp

theorem ranEvents_execPhase (runCommand : String → RunOutcome) (cmds : List String) :
    ranEvents (execPhase runCommand cmds) = cmds.map (fun c => (c, runCommand c)) := by
  induction cmds with
  | nil => rfl
  | cons c rest ih =>
    simp only [execPhase, ranEvents, List.filterMap_cons, List.map_cons] at ih ⊢
    simpa using ih

theorem prompt_not_mem_execPhase (runCommand : String → RunOutcome) (cmds : List String) :
    Event.promptedConfirmation ∉ execPhase runCommand cmds := by
  simp only [execPhase]
  intro hmem
  rcases List.mem_cons.mp hmem with h | h
  · exact Event.noConfusion h
  · obtain ⟨c, _, hc⟩ := List.mem_map.mp h
    exact Event.noConfusion hc

theorem validatePhase_safe (validate : String → SafetyVerdict) (cmds : List String)
    (h : ∀ c ∈ cmds, (validate c).safe = true) :
    validatePhase validate cmds = (cmds.map Event.checkedSafety, true) := by
  induction cmds with
  | nil => rfl
  | cons c rest ih =>
    have hc := h c (by simp)
    have ihr := ih (fun x hx => h x (by simp [hx]))
    simp [validatePhase, hc, ihr]

theorem exists_unsafe_firstUnsafeReason (validate : String → SafetyVerdict)
    (cmds : List String) (h : ∃ c ∈ cmds, (validate c).safe = false) :
    ∃ r, firstUnsafeReason validate cmds = some r := by
  induction cmds with
  | nil => simp at h
  | cons c rest ih =>
    by_cases hc : (validate c).safe = true
    · obtain ⟨x, hx, hxs⟩ := h
      rcases List.mem_cons.mp hx with rfl | hx2
      · rw [hc] at hxs
        exact absurd hxs (by simp)
      · obtain ⟨r, hr⟩ := ih ⟨x, hx2, hxs⟩
        exact ⟨r, by simp [firstUnsafeReason, hc, hr]⟩
    · exact ⟨(validate c).reason, by simp [firstUnsafeReason, hc]⟩

theorem validatePhase_unsafe (validate : String → SafetyVerdict) (cmds : List String)
    (r : String) (h : firstUnsafeReason validate cmds = some r) :
    (validatePhase validate cmds).2 = false ∧
    Event.safetyFailed r ∈ (validatePhase validate cmds).1 ∧
    ranEvents (validatePhase validate cmds).1 = [] ∧
    Event.startedExecution ∉ (validatePhase validate cmds).1 := by
  induction cmds with
  | nil => simp [firstUnsafeReason] at h
  | cons c rest ih =>
    by_cases hc : (validate c).safe = true
    · have h2 : firstUnsafeReason validate rest = some r := by
        simpa [firstUnsafeReason, hc] using h
      obtain ⟨ih1, ih2, ih3, ih4⟩ := ih h2
      refine ⟨by simp [validatePhase, hc, ih1], by simp [validatePhase, hc, ih2], ?_, ?_⟩
      · simpa [validatePhase, hc, ranEvents] using ih3
      · simp only [validatePhase, hc]
        intro hmem
        rcases List.mem_cons.mp hmem with h3 | h3
        · exact Event.noConfusion h3
        · exact ih4 h3
    · have hr : some (validate c).reason = some r := by
        simpa [firstUnsafeReason, hc] using h
      have hr2 : (validate c).reason = r := Option.some.inj hr
      refine ⟨by simp [validatePhase, hc], by simp [validatePhase, hc, hr2], ?_, ?_⟩
      · simp [validatePhase, hc, ranEvents]
      · simp [validatePhase, hc]

/-! ## C1, C2, C8 -/

/-- C1: with `dry_run=False`, if the Safety Validator classifies any
command of the plan as unsafe, the whole plan is rejected with the first
unsafe command's reason and no command runs — in particular nothing reaches
the subprocess phase (`startedExecution`) unless every command passed the
gate. -/
theorem unsafe_plan_executes_nothing (validate : String → SafetyVerdict)
    (runCommand : String → RunOutcome) (answer : String)
    (fields : List (String × JVal)) (auto_confirm : Bool)
    (h : ∃ c ∈ (planFromFields fields).commands, (validate c).safe = false) :
    ∃ r, firstUnsafeReason validate (planFromFields fields).commands = some r ∧
      ranEvents (execute_commands validate runCommand answer fields auto_confirm false) = [] ∧
      Event.safetyFailed r ∈
        execute_commands validate runCommand answer fields auto_confirm false ∧
      Event.startedExecution ∉
        execute_commands validate runCommand answer fields auto_confirm false := by
  obtain ⟨r, hr⟩ := exists_unsafe_firstUnsafeReason validate _ h
  obtain ⟨h2, hmem, hran, hstart⟩ := validatePhase_unsafe validate _ r hr
  have hexec : execute_commands validate runCommand answer fields auto_confirm false =
      renderEvents fields ++ (validatePhase validate (planFromFields fields).commands).1 := by
    simp [execute_commands, h2]
  refine ⟨r, hr, ?_, ?_, ?_⟩
  · rw [hexec, ranEvents_append, ranEvents_renderEvents, hran]
    rfl
  · rw [hexec]
    exact List.mem_append_right _ hmem
  · rw [hexec]
    intro hm
    rcases List.mem_append.mp hm with h3 | h3
    · exact started_not_mem_renderEvents fields h3
    · exact hstart h3

/-- C2: for a plan every command of which the Safety Validator accepts, run
with `dry_run=False`: the confirmation prompt occurs exactly when the plan
requires confirmation and `auto_confirm` is off; at the prompt, any answer
other than (case-insensitive) `y` cancels the plan with nothing run; with
`auto_confirm=True` no prompt occurs and every command runs. -/
theorem confirmation_gate (validate : String → SafetyVerdict)
    (runCommand : String → RunOutcome) (answer : String)
    (fields : List (String × JVal)) (auto_confirm : Bool)
    (hsafe : ∀ c ∈ (planFromFields fields).commands, (validate c).safe = true) :
    ((Event.promptedConfirmation ∈
        execute_commands validate runCommand answer fields auto_confirm false) ↔
      ((planFromFields fields).requires_confirmation = true ∧ auto_confirm = false)) ∧
    ((planFromFields fields).requires_confirmation = true → auto_confirm = false →
      lowerS answer ≠ "y" →
      ranEvents (execute_commands validate runCommand answer fields auto_confirm false) = [] ∧
      Event.cancelledByUser ∈
        execute_commands validate runCommand answer fields auto_confirm false) ∧
    (auto_confirm = true →
      Event.promptedConfirmation ∉
        execute_commands validate runCommand answer fields auto_confirm false ∧
      ranEvents (execute_commands validate runCommand answer fields auto_confirm false) =
        (planFromFields fields).commands.map (fun c => (c, runCommand c))) := by
  have hv := validatePhase_safe validate _ hsafe
  have hexec : execute_commands validate runCommand answer fields auto_confirm false =
      renderEvents fields ++
        ((planFromFields fields).commands.map Event.checkedSafety ++
          (if (planFromFields fields).requires_confirmation && !auto_confirm then
            Event.promptedConfirmation ::
              (if lowerS answer ≠ "y" then [Event.cancelledByUser]
              else execPhase runCommand (planFromFields fields).commands)
          else execPhase runCommand (planFromFields fields).commands)) := by
    simp [execute_commands, hv]
  refine ⟨?_, ?_, ?_⟩
  · constructor
    · intro hm
      by_contra hcontra
      have hcond : ¬ (((planFromFields fields).requires_confirmation && !auto_confirm) = true) := by
        cases hrc : (planFromFields fields).requires_confirmation <;>
          cases hac : auto_confirm <;> simp_all
      rw [hexec, if_neg hcond] at hm
      rcases List.mem_append.mp hm with h3 | h3
      · exact prompt_not_mem_renderEvents fields h3
      · rcases List.mem_append.mp h3 with h4 | h4
        · exact prompt_not_mem_map_checked _ h4
        · exact prompt_not_mem_execPhase runCommand _ h4
    · rintro ⟨h1, h2⟩
      have hcond : ((planFromFields fields).requires_confirmation && !auto_confirm) = true := by
        simp [h1, h2]
      rw [hexec, if_pos hcond]
      simp
  · intro h1 h2 h3
    have hcond : ((planFromFields fields).requires_confirmation && !auto_confirm) = true := by
      simp [h1, h2]
    constructor
    · rw [hexec, if_pos hcond, if_pos h3]
      rw [ranEvents_append, ranEvents_renderEvents, ranEvents_append, ranEvents_map_checked]
      simp [ranEvents]
    · rw [hexec, if_pos hcond, if_pos h3]
      simp
  · intro hac
    have hcond : ¬ (((planFromFields fields).requires_confirmation && !auto_confirm) = true) := by
      simp [hac]
    constructor
    · rw [hexec, if_neg hcond]
      intro hm
      rcases List.mem_append.mp hm with h3 | h3
      · exact prompt_not_mem_renderEvents fields h3
      · rcases List.mem_append.mp h3 with h4 | h4
        · exact prompt_not_mem_map_checked _ h4
        · exact prompt_not_mem_execPhase runCommand _ h4
    · rw [hexec, if_neg hcond]
      rw [ranEvents_append, ranEvents_renderEvents, ranEvents_append, ranEvents_map_checked,
        ranEvents_execPhase]
      rfl

/-- C8: for a safe plan that clears the confirmation gate (not required,
auto-confirmed, or answered `y`), every command is attempted strictly in
plan order and each reports its own outcome — a non-zero exit, a timeout
(`RunOutcome.timedOut`, reported distinctly from `completed`) or any other
per-command error never halts the remaining commands. -/
theorem command_failures_do_not_halt (validate : String → SafetyVerdict)
    (runCommand : String → RunOutcome) (answer : String)
    (fields : List (String × JVal)) (auto_confirm : Bool)
    (hsafe : ∀ c ∈ (planFromFields fields).commands, (validate c).safe = true)
    (hconf : (planFromFields fields).requires_confirmation = false ∨ auto_confirm = true ∨
      lowerS answer = "y") :
    ranEvents (execute_commands validate runCommand answer fields auto_confirm false) =
      (planFromFields fields).commands.map (fun c => (c, runCommand c)) := by
  have hv := validatePhase_safe validate _ hsafe
  have hexec : execute_commands validate runCommand answer fields auto_confirm false =
      renderEvents fields ++
        ((planFromFields fields).commands.map Event.checkedSafety ++
          (if (planFromFields fields).requires_confirmation && !auto_confirm then
            Event.promptedConfirmation ::
              (if lowerS answer ≠ "y" then [Event.cancelledByUser]
              else execPhase runCommand (planFromFields fields).commands)
          else execPhase runCommand (planFromFields fields).commands)) := by
    simp [execute_commands, hv]
  have hprompt : ranEvents (Event.promptedConfirmation ::
      execPhase runCommand (planFromFields fields).commands) =
      (planFromFields fields).commands.map (fun c => (c, runCommand c)) := by
    have : ranEvents (Event.promptedConfirmation ::
        execPhase runCommand (planFromFields fields).commands) =
        ranEvents (execPhase runCommand (planFromFields fields).commands) := by
      simp [ranEvents]
    rw [this, ranEvents_execPhase]
  by_cases hcond : ((planFromFields fields).requires_confirmation && !auto_confirm) = true
  · have hy : ¬ lowerS answer ≠ "y" := by
      rcases hconf with h1 | h1 | h1
      · exact absurd hcond (by simp [h1])
      · exact absurd hcond (by simp [h1])
      · simp [h1]
    rw [hexec, if_pos hcond, if_neg hy,
      ranEvents_append, ranEvents_renderEvents, ranEvents_append, ranEvents_map_checked, hprompt]
    rfl
  · rw [hexec, if_neg hcond,
      ranEvents_append, ranEvents_renderEvents, ranEvents_append, ranEvents_map_checked,
      ranEvents_execPhase]
    rfl

/-! ## C3, C4: tool dispatch -/

/-- C3 (amended): for a Tool Call Request whose tool name is registered and
whose argument text decodes, dispatch appends exactly one Tool Result
carrying the request's correlation id — whether the tool returns a payload
or raises (the error description becoming the payload).  A request naming
an unregistered tool appends nothing (executor.py 241-242 only prints a
warning), and an undecodable argument text raises instead. -/
theorem registered_dispatch_appends_one_result (registry : String → Option ToolFn)
    (hist : List Msg) (tc : ToolCall) (args : JVal) (f : ToolFn)
    (hdecode : jsonParse tc.arguments = some args)
    (hreg : registry tc.name = some f) :
    ∃ payload, handle_tool_call registry hist tc =
      .ok (hist ++ [Msg.tool tc.id tc.name payload]) := by
  cases hf : f args with
  | ok result =>
    exact ⟨dumpsS result, by simp [handle_tool_call, hdecode, hreg, hf, add_tool_response]⟩
  | error e =>
    exact ⟨dumpsS (JVal.obj [("error", JVal.str e)]),
      by simp [handle_tool_call, hdecode, hreg, hf, add_tool_response]⟩

/-- Fixture: a diagnostic tool that succeeds. -/
def diskTool : ToolFn := fun _ => Except.ok (JVal.str "42G")

/-- Fixture: a registry containing only `get_disk_space`. -/
def registry0 : String → Option ToolFn :=
  fun n => if n = "get_disk_space" then some diskTool else none

theorem registered_dispatch_appends_one_result_witness :
    ∃ payload, handle_tool_call registry0 [] ⟨"call_9", "get_disk_space", "\x7b\x7d"⟩ =
      .ok ([] ++ [Msg.tool "call_9" "get_disk_space" payload]) :=
  registered_dispatch_appends_one_result registry0 []
    ⟨"call_9", "get_disk_space", "\x7b\x7d"⟩ (JVal.obj []) diskTool rfl rfl

/-- C3 counterexample: dispatching a request whose tool name is not in the
registry completes without appending any Tool Result — the history stays
empty, so the claimed "exactly one Tool Result for every request" fails for
unregistered names. -/
theorem unknown_tool_appends_no_result :
    handle_tool_calls (fun _ => none) [] [⟨"call_1", "mystery_tool", "\x7b\x7d"⟩] = .ok [] ∧
    ∀ payload, Msg.tool "call_1" "mystery_tool" payload ∉ ([] : List Msg) := by
  refine ⟨rfl, ?_⟩
  intro payload h
  exact List.not_mem_nil _ h

/-- C4 (amended): once the argument text has decoded and the tool is
registered, no exception escapes the dispatch step: a raising tool is
converted into a Tool Result whose payload is the error description.  An
exception from decoding the argument text itself, however, propagates —
`json.loads` runs at executor.py 213, outside the `try` of line 223. -/
theorem tool_exception_converted_not_propagated (registry : String → Option ToolFn)
    (hist : List Msg) (tc : ToolCall) (args : JVal) (f : ToolFn)
    (hdecode : jsonParse tc.arguments = some args)
    (hreg : registry tc.name = some f) :
    (∃ hist2, handle_tool_call registry hist tc = .ok hist2) ∧
    (∀ e, f args = .error e →
      handle_tool_call registry hist tc =
        .ok (add_tool_response hist tc.id tc.name (JVal.obj [("error", JVal.str e)]))) := by
  constructor
  · cases hf : f args with
    | ok result =>
      exact ⟨add_tool_response hist tc.id tc.name result,
        by simp [handle_tool_call, hdecode, hreg, hf]⟩
    | error e =>
      exact ⟨add_tool_response hist tc.id tc.name (JVal.obj [("error", JVal.str e)]),
        by simp [handle_tool_call, hdecode, hreg, hf]⟩
  · intro e he
    simp [handle_tool_call, hdecode, hreg, he]

/-- Fixture: a diagnostic tool that raises. -/
def failTool : ToolFn := fun _ => Except.error "boom"

/-- Fixture: a registry containing only `fail_tool`. -/
def registryFail : String → Option ToolFn :=
  fun n => if n = "fail_tool" then some failTool else none

theorem tool_exception_converted_not_propagated_witness :
    (∃ hist2, handle_tool_call registryFail [] ⟨"call_3", "fail_tool", "\x7b\x7d"⟩ = .ok hist2) ∧
    handle_tool_call registryFail [] ⟨"call_3", "fail_tool", "\x7b\x7d"⟩ =
      .ok (add_tool_response [] "call_3" "fail_tool" (JVal.obj [("error", JVal.str "boom")])) := by
  have h := tool_exception_converted_not_propagated registryFail []
    ⟨"call_3", "fail_tool", "\x7b\x7d"⟩ (JVal.obj []) failTool rfl rfl
  exact ⟨h.1, h.2 "boom" rfl⟩

/-- C4 counterexample: a Tool Call Request whose argument text is not valid
JSON makes the dispatch step itself raise (`json.loads` at executor.py 213
is outside the `try`), so the exception propagates instead of becoming a
Tool Result. -/
theorem malformed_arguments_exception_propagates :
    handle_tool_calls (fun _ => some diskTool) [] [⟨"call_2", "get_disk_space", "oops"⟩] =
      .error (.jsonDecodeError "oops") := rfl

/-! ## Witnesses for C1, C2, C8 -/

/-- Fixture: validator that rejects exactly `rm -rf /`. -/
def validate0 : String → SafetyVerdict :=
  fun c => if c = "rm -rf /" then ⟨false, "Recursive force delete of root"⟩ else ⟨true, "ok"⟩

/-- Fixture: validator that accepts everything. -/
def validateAllSafe : String → SafetyVerdict := fun _ => ⟨true, "ok"⟩

/-- Fixture: subprocess layer where every command succeeds. -/
def runOk : String → RunOutcome := fun _ => .completed 0 "done" ""

/-- Fixture: subprocess layer where exactly `sleep 1000` hits the
300-second timeout. -/
def runMiddleTimesOut : String → RunOutcome :=
  fun c => if c = "sleep 1000" then .timedOut else .completed 0 "done" ""

/-- Fixture: three commands, the second unsafe. -/
def fieldsUnsafe : List (String × JVal) :=
  [("commands", .arr [.str "ls", .str "rm -rf /", .str "pwd"]),
   ("explanation", .str "cleanup"), ("warnings", .arr []),
   ("requires_confirmation", .bool true)]

/-- Fixture: one safe command requiring confirmation. -/
def fieldsConfirm : List (String × JVal) :=
  [("commands", .arr [.str "echo hi"]), ("requires_confirmation", .bool true)]

/-- Fixture: three safe commands, no confirmation required. -/
def fieldsTimeout : List (String × JVal) :=
  [("commands", .arr [.str "echo a", .str "sleep 1000", .str "echo b"]),
   ("requires_confirmation", .bool false)]

theorem unsafe_plan_executes_nothing_witness :
    ∃ r, firstUnsafeReason validate0 (planFromFields fieldsUnsafe).commands = some r ∧
      ranEvents (execute_commands validate0 runOk "y" fieldsUnsafe false false) = [] ∧
      Event.safetyFailed r ∈ execute_commands validate0 runOk "y" fieldsUnsafe false false ∧
      Event.startedExecution ∉ execute_commands validate0 runOk "y" fieldsUnsafe false false :=
  unsafe_plan_executes_nothing validate0 runOk "y" fieldsUnsafe false
    ⟨"rm -rf /", by decide, rfl⟩

theorem confirmation_gate_witness :
    Event.promptedConfirmation ∈
      execute_commands validateAllSafe runOk "n" fieldsConfirm false false ∧
    ranEvents (execute_commands validateAllSafe runOk "n" fieldsConfirm false false) = [] ∧
    Event.cancelledByUser ∈
      execute_commands validateAllSafe runOk "n" fieldsConfirm false false ∧
    Event.promptedConfirmation ∉
      execute_commands validateAllSafe runOk "n" fieldsConfirm true false ∧
    ranEvents (execute_commands validateAllSafe runOk "n" fieldsConfirm true false) =
      [("echo hi", RunOutcome.completed 0 "done" "")] := by
  have h1 := confirmation_gate validateAllSafe runOk "n" fieldsConfirm false (fun c _ => rfl)
  have h2 := confirmation_gate validateAllSafe runOk "n" fieldsConfirm true (fun c _ => rfl)
  refine ⟨h1.1.mpr ⟨rfl, rfl⟩, (h1.2.1 rfl rfl (by decide)).1, (h1.2.1 rfl rfl (by decide)).2,
    (h2.2.2 rfl).1, ((h2.2.2 rfl).2).trans rfl⟩

theorem command_failures_do_not_halt_witness :
    ranEvents (execute_commands validateAllSafe runMiddleTimesOut "x" fieldsTimeout false false) =
      [("echo a", RunOutcome.completed 0 "done" ""), ("sleep 1000", RunOutcome.timedOut),
        ("echo b", RunOutcome.completed 0 "done" "")] := by
  have h := command_failures_do_not_halt validateAllSafe runMiddleTimesOut "x" fieldsTimeout false
    (fun c _ => rfl) (Or.inl rfl)
  exact h.trans rfl

/-! ## C5: the 10-round circuit breaker -/

/-- A backend response that carries Tool Call Requests: at least one
choice, a non-empty `tool_calls` list, every argument text decodable (the
spec's Tool Call Request carries an argument mapping). -/
def isToolRoundB : Except String ModelResponse → Bool
  | .error _ => false
  | .ok resp =>
    match resp.choices with
    | [] => false
    | choice :: _ =>
      !choice.message.tool_calls.isEmpty &&
        choice.message.tool_calls.all (fun tc => (jsonParse tc.arguments).isSome)

theorem handle_tool_calls_ok (tcs : List ToolCall) (registry : String → Option ToolFn) :
    ∀ hist, (∀ tc ∈ tcs, (jsonParse tc.arguments).isSome = true) →
    ∃ hist2, handle_tool_calls registry hist tcs = .ok hist2 := by
  induction tcs with
  | nil => exact fun hist _ => ⟨hist, rfl⟩
  | cons tc rest ih =>
    intro hist h
    obtain ⟨args, hargs⟩ := Option.isSome_iff_exists.mp (h tc (by simp))
    have hone : ∃ h1, handle_tool_call registry hist tc = .ok h1 := by
      cases hreg : registry tc.name with
      | none => exact ⟨hist, by simp [handle_tool_call, hargs, hreg]⟩
      | some f =>
        cases hf : f args with
        | ok r =>
          exact ⟨add_tool_response hist tc.id tc.name r,
            by simp [handle_tool_call, hargs, hreg, hf]⟩
        | error e =>
          exact ⟨add_tool_response hist tc.id tc.name (JVal.obj [("error", JVal.str e)]),
            by simp [handle_tool_call, hargs, hreg, hf]⟩
    obtain ⟨h1, hh1⟩ := hone
    obtain ⟨h2, hh2⟩ := ih h1 (fun x hx => h x (by simp [hx]))
    exact ⟨h2, by simp [handle_tool_calls, hh1, hh2]⟩

theorem quickTaskLoop_agree (env : ExecEnv) (ac dr : Bool)
    (resp resp2 : Nat → Except String ModelResponse) :
    ∀ fuel iteration hist,
      (∀ i, iteration + 1 ≤ i → i ≤ iteration + fuel → resp i = resp2 i) →
      quickTaskLoop env resp ac dr hist iteration fuel =
        quickTaskLoop env resp2 ac dr hist iteration fuel := by
  intro fuel
  induction fuel with
  | zero => intro it hist h; rfl
  | succ fuel ih =>
    intro it hist h
    have hstep : resp (it + 1) = resp2 (it + 1) := h (it + 1) (by omega) (by omega)
    have hrest : ∀ i, (it + 1) + 1 ≤ i → i ≤ (it + 1) + fuel → resp i = resp2 i :=
      fun i h1 h2 => h i (by omega) (by omega)
    cases hr : resp2 (it + 1) with
    | error e => simp [quickTaskLoop, chat, hstep, hr]
    | ok response =>
      obtain ⟨choices⟩ := response
      cases choices with
      | nil => simp [quickTaskLoop, chat, hstep, hr]
      | cons choice rest =>
        by_cases hne : choice.message.tool_calls = []
        · cases hc : choice.message.content with
          | none =>
            simp only [quickTaskLoop, chat, hstep, hr, hne, hc]
            simp
            exact ih (it + 1) _ hrest
          | some content =>
            by_cases hemp : content = ""
            · simp only [quickTaskLoop, chat, hstep, hr, hne, hc, hemp]
              simp
              exact ih (it + 1) _ hrest
            · simp [quickTaskLoop, chat, hstep, hr, hne, hc, hemp]
        · have hAD : ∀ X : Except PyExn (List Msg),
              (match X with
                | .error e => (.error e : Except PyExn TaskOutcome)
                | .ok hist2 => quickTaskLoop env resp ac dr hist2 (it + 1) fuel) =
              (match X with
                | .error e => (.error e : Except PyExn TaskOutcome)
                | .ok hist2 => quickTaskLoop env resp2 ac dr hist2 (it + 1) fuel) := by
            intro X
            cases X with
            | error e => rfl
            | ok hist2 => exact ih (it + 1) hist2 hrest
          simp only [quickTaskLoop, chat, hstep, hr]
          simp only [if_pos hne]
          exact hAD _

theorem quickTaskLoop_tool_rounds (env : ExecEnv) (ac dr : Bool)
    (resp : Nat → Except String ModelResponse) :
    ∀ fuel iteration hist,
      (∀ i, iteration + 1 ≤ i → i ≤ iteration + fuel → isToolRoundB (resp i) = true) →
      quickTaskLoop env resp ac dr hist iteration fuel = .ok .maxIterationsReached := by
  intro fuel
  induction fuel with
  | zero => intro it hist h; rfl
  | succ fuel ih =>
    intro it hist h
    have hhead : isToolRoundB (resp (it + 1)) = true := h (it + 1) (by omega) (by omega)
    have hrest : ∀ i, (it + 1) + 1 ≤ i → i ≤ (it + 1) + fuel → isToolRoundB (resp i) = true :=
      fun i h1 h2 => h i (by omega) (by omega)
    cases hr : resp (it + 1) with
    | error e => rw [hr] at hhead; simp [isToolRoundB] at hhead
    | ok response =>
      obtain ⟨choices⟩ := response
      cases choices with
      | nil => rw [hr] at hhead; simp [isToolRoundB] at hhead
      | cons choice rest =>
        rw [hr] at hhead
        simp only [isToolRoundB, Bool.and_eq_true, List.all_eq_true] at hhead
        obtain ⟨hne0, hall⟩ := hhead
        have hne : choice.message.tool_calls ≠ [] := by
          intro hcl
          rw [hcl] at hne0
          simp at hne0
        obtain ⟨hist2, hh⟩ := handle_tool_calls_ok choice.message.tool_calls env.registry
          ((hist ++ [Msg.user (if it = 0 then env.context else "Continue with the task.")]) ++
            [Msg.assistant (choice.message.content.getD "") choice.message.tool_calls]) hall
        have hAD : ∀ X : Except PyExn (List Msg), X = Except.ok hist2 →
            (match X with
              | .error e => (.error e : Except PyExn TaskOutcome)
              | .ok h2 => quickTaskLoop env resp ac dr h2 (it + 1) fuel) =
              .ok .maxIterationsReached := by
          rintro X rfl
          exact ih (it + 1) hist2 hrest
        simp only [quickTaskLoop, chat, hr]
        simp only [if_pos hne]
        exact hAD _ hh

/-- C5: the orchestration loop performs at most 10 round-trips — its
outcome depends only on the first 10 backend responses — and when each of
those 10 responses carries Tool Call Requests (with decodable argument
mappings, never a final plan or answer), it stops after round 10 with the
`maxIterationsReached` outcome: an incomplete task, not a raised
exception. -/
theorem loop_bounded_ten_rounds (env : ExecEnv) (auto_confirm dry_run : Bool)
    (resp resp2 : Nat → Except String ModelResponse)
    (hagree : ∀ i, 1 ≤ i → i ≤ 10 → resp i = resp2 i)
    (htool : ∀ i, 1 ≤ i → i ≤ 10 → isToolRoundB (resp i) = true) :
    execute_quick_task env resp auto_confirm dry_run =
      execute_quick_task env resp2 auto_confirm dry_run ∧
    execute_quick_task env resp auto_confirm dry_run =
      Except.ok TaskOutcome.maxIterationsReached := by
  constructor
  · exact quickTaskLoop_agree env auto_confirm dry_run resp resp2 10 0 []
      (fun i h1 h2 => hagree i (by omega) (by omega))
  · exact quickTaskLoop_tool_rounds env auto_confirm dry_run resp 10 0 []
      (fun i h1 h2 => htool i (by omega) (by omega))

/-- Fixture: an assistant message carrying one tool call. -/
def toolRoundMsg : AssistantMsg := ⟨none, [⟨"tc_1", "get_disk_space", "\x7b\x7d"⟩]⟩

/-- Fixture: a backend that requests a tool on every round. -/
def respToolRounds : Nat → Except String ModelResponse := fun _ => .ok ⟨[⟨toolRoundMsg⟩]⟩

/-- Fixture: a task environment with an empty registry. -/
def env0 : ExecEnv := ⟨fun _ => none, validateAllSafe, runOk, "y", "prompt", "context"⟩

theorem loop_bounded_ten_rounds_witness :
    execute_quick_task env0 respToolRounds false false =
      execute_quick_task env0 respToolRounds false false ∧
    execute_quick_task env0 respToolRounds false false =
      Except.ok TaskOutcome.maxIterationsReached :=
  loop_bounded_ten_rounds env0 false false respToolRounds respToolRounds
    (fun _ _ _ => rfl) (fun _ _ _ => rfl)

/-! ## C7: parser totality and graceful failure -/

/-- C7: `_parse_llm_response` is total (its type is `Option`, the bare
`except` of the source having been absorbed into the failing parse), and
whenever `json.loads` fails on the candidate text selected by the
applicable stage — labelled fence, anonymous fence, or the whole text — the
parser returns absence-of-plan rather than raising. -/
theorem parse_failure_yields_none (content : String)
    (h : jsonParseL (candidateOf content.data) = none) :
    parse_llm_response content = none := by
  unfold parse_llm_response parse_llm_responseL
  unfold candidateOf at h
  by_cases h1 : containsL fenceJson content.data = true
  · rw [if_pos h1] at h ⊢
    exact h
  · rw [if_neg h1] at h ⊢
    by_cases h2 : containsL fenceMark content.data = true
    · rw [if_pos h2] at h ⊢
      exact h
    · rw [if_neg h2] at h ⊢
      exact h

theorem parse_failure_yields_none_witness :
    jsonParseL (candidateOf "I do not know.".data) = none ∧
    parse_llm_response "I do not know." = none :=
  ⟨rfl, parse_failure_yields_none "I do not know." rfl⟩

/-! ## C6: round trip of a fenced structured block

The repository holds no serializer — the fenced block is produced by the
model.  `renderPlanL` below is therefore modelled from the spec: the
canonical JSON text for the Command Plan fields `{commands, explanation,
warnings, requires_confirmation}` of §3/§4.2, emitted compactly.  The
parser side (`parse_llm_responseL`, `jsonParseL`) is the one embedded from
the source, so the round trip compares the spec's block shape against the
source's parsing pipeline. -/

/-- The backtick character (written by code, kept out of string contents). -/
def btChar : Char := '\x60'

/-- A character that needs no JSON escaping and cannot disturb the fence
splitting: printable, not a quote, backslash or backtick. -/
def cleanChar (c : Char) : Bool :=
  32 ≤ c.toNat && c ≠ '"' && c ≠ '\\' && c ≠ btChar

/-- A string of clean characters. -/
def cleanStr (s : String) : Bool :=
  s.data.all cleanChar

/-- A plan whose strings are all clean. -/
def cleanPlan (p : CommandPlan) : Bool :=
  p.commands.all cleanStr && cleanStr p.explanation && p.warnings.all cleanStr

/-- JSON string literal for a clean string. -/
def renderStr (s : String) : List Char :=
  '"' :: (s.data ++ ['"'])

/-- Continuation of a comma-separated list of JSON string literals. -/
def renderStrTail : List String → List Char
  | [] => []
  | t :: ts => ',' :: (renderStr t ++ renderStrTail ts)

/-- Comma-separated JSON string literals. -/
def renderStrList : List String → List Char
  | [] => []
  | s :: ss => renderStr s ++ renderStrTail ss

/-- One `"key":value` member. -/
def renderKV (k : String) (v : List Char) : List Char :=
  '"' :: (k.data ++ '"' :: ':' :: v)

/-- Modelled from the spec: the structured block body for a Command Plan —
a JSON object with the four fields of the spec's Command Plan data model. -/
def renderPlanL (p : CommandPlan) : List Char :=
  '\x7b' :: (renderKV "commands" ('[' :: (renderStrList p.commands ++ [']'])) ++
    ',' :: renderKV "explanation" (renderStr p.explanation) ++
    ',' :: renderKV "warnings" ('[' :: (renderStrList p.warnings ++ [']'])) ++
    ',' :: renderKV "requires_confirmation"
      (if p.requires_confirmation then "true".data else "false".data) ++ ['\x7d'])

/-- The JSON object `json.loads` produces from `renderPlanL`. -/
def planJsonFields (p : CommandPlan) : List (String × JVal) :=
  [("commands", .arr (p.commands.map .str)),
   ("explanation", .str p.explanation),
   ("warnings", .arr (p.warnings.map .str)),
   ("requires_confirmation", .bool p.requires_confirmation)]

/-- A model reply embedding the plan in a ```` ```json ```` fence,
surrounded by arbitrary prose. -/
def fencedBlock (pre : List Char) (p : CommandPlan) (suf : List Char) : List Char :=
  pre ++ fenceJson ++ '\n' :: renderPlanL p ++ '\n' :: fenceMark ++ suf

example : String.mk (fencedBlock "Plan:\n".data ⟨["ls"], "list", [], true⟩ "".data) =
    "Plan:\n```json\n\x7b\"commands\":[\"ls\"],\"explanation\":\"list\",\"warnings\":[],\"requires_confirmation\":true\x7d\n```" := rfl

/-! ### splitOn / contains machinery -/

theorem isPrefixOfL_append_self (l t : List Char) : isPrefixOfL l (l ++ t) = true := by
  induction l with
  | nil => rfl
  | cons a s ih => simp [isPrefixOfL, ih]

theorem isPrefixOfL_cons_ne (a b : Char) (s t : List Char) (h : a ≠ b) :
    isPrefixOfL (a :: s) (b :: t) = false := by
  simp [isPrefixOfL, h]

theorem isPrefixOfL_cons_nil (a : Char) (s : List Char) :
    isPrefixOfL (a :: s) [] = false := rfl

theorem containsL_append_self (s0 : Char) (ss pre rest : List Char) :
    containsL (s0 :: ss) (pre ++ ((s0 :: ss) ++ rest)) = true := by
  induction pre with
  | nil =>
    show containsL (s0 :: ss) ((s0 :: ss) ++ rest) = true
    rw [show (s0 :: ss) ++ rest = s0 :: (ss ++ rest) from rfl]
    rw [containsL]
    rw [show s0 :: (ss ++ rest) = (s0 :: ss) ++ rest from rfl]
    rw [isPrefixOfL_append_self]
    rfl
  | cons c pre2 ih =>
    rw [show (c :: pre2) ++ ((s0 :: ss) ++ rest) = c :: (pre2 ++ ((s0 :: ss) ++ rest)) from rfl]
    rw [containsL, ih, Bool.or_true]

theorem splitOnF_fuel (sep : List Char) :
    ∀ fuel fuel2 l, l.length ≤ fuel → l.length ≤ fuel2 →
      splitOnF sep fuel l = splitOnF sep fuel2 l := by
  intro fuel
  induction fuel with
  | zero =>
    intro fuel2 l h1 h2
    have : l = [] := List.length_eq_zero.mp (Nat.le_zero.mp h1)
    subst this
    cases fuel2 <;> rfl
  | succ fuel ih =>
    intro fuel2 l h1 h2
    cases l with
    | nil => cases fuel2 <;> rfl
    | cons c cs =>
      cases fuel2 with
      | zero => exact absurd h2 (by simp)
      | succ fuel2 =>
        by_cases hm : sep ≠ [] ∧ isPrefixOfL sep (c :: cs) = true
        · rw [splitOnF, splitOnF, if_pos hm, if_pos hm]
          have hlen : (List.drop (sep.length - 1) cs).length ≤ fuel := by
            have := List.length_drop (sep.length - 1) cs
            simp at h1
            omega
          have hlen2 : (List.drop (sep.length - 1) cs).length ≤ fuel2 := by
            have := List.length_drop (sep.length - 1) cs
            simp at h2
            omega
          rw [ih fuel2 _ hlen hlen2]
        · rw [splitOnF, splitOnF, if_neg hm, if_neg hm]
          have hcs : cs.length ≤ fuel := by simp at h1; omega
          have hcs2 : cs.length ≤ fuel2 := by simp at h2; omega
          rw [ih fuel2 cs hcs hcs2]

theorem splitOnL_cons_nomatch (sep : List Char) (c : Char) (cs : List Char)
    (h : isPrefixOfL sep (c :: cs) = false) :
    splitOnL sep (c :: cs) =
      (match splitOnL sep cs with
       | [] => [[c]]
       | p :: ps => (c :: p) :: ps) := by
  have hm : ¬ (sep ≠ [] ∧ isPrefixOfL sep (c :: cs) = true) := by
    intro hx
    rw [h] at hx
    exact absurd hx.2 (by simp)
  show splitOnF sep (c :: cs).length (c :: cs) = _
  rw [show (c :: cs).length = cs.length + 1 by simp, splitOnF, if_neg hm]
  rfl

theorem splitOnL_sep_start (s0 : Char) (ss rest : List Char) :
    splitOnL (s0 :: ss) ((s0 :: ss) ++ rest) = [] :: splitOnL (s0 :: ss) rest := by
  have hm : ((s0 :: ss) ≠ [] ∧ isPrefixOfL (s0 :: ss) ((s0 :: ss) ++ rest) = true) := by
    exact ⟨by simp, isPrefixOfL_append_self _ _⟩
  show splitOnF (s0 :: ss) ((s0 :: ss) ++ rest).length ((s0 :: ss) ++ rest) = _
  have hlen : ((s0 :: ss) ++ rest).length = (ss ++ rest).length + 1 := by simp
  rw [hlen]
  rw [show (s0 :: ss) ++ rest = s0 :: (ss ++ rest) by simp]
  rw [splitOnF, if_pos (by simpa using hm)]
  have hdrop : List.drop ((s0 :: ss).length - 1) (ss ++ rest) = rest := by
    simp only [List.length_cons, Nat.add_sub_cancel]
    exact List.drop_left ss rest
  rw [hdrop]
  have : splitOnF (s0 :: ss) (ss ++ rest).length rest = splitOnL (s0 :: ss) rest := by
    apply splitOnF_fuel
    · simp
    · rfl
  rw [this]

theorem splitOnL_append_sep (s0 : Char) (ss : List Char) :
    ∀ pre rest, (∀ c ∈ pre, c ≠ s0) →
      splitOnL (s0 :: ss) (pre ++ ((s0 :: ss) ++ rest)) =
        pre :: splitOnL (s0 :: ss) rest := by
  intro pre
  induction pre with
  | nil =>
    intro rest _
    simpa using splitOnL_sep_start s0 ss rest
  | cons c pre2 ih =>
    intro rest h
    have hc : c ≠ s0 := h c (by simp)
    have hpre2 : ∀ x ∈ pre2, x ≠ s0 := fun x hx => h x (by simp [hx])
    rw [show (c :: pre2) ++ ((s0 :: ss) ++ rest) = c :: (pre2 ++ ((s0 :: ss) ++ rest)) by simp]
    rw [splitOnL_cons_nomatch _ _ _ (isPrefixOfL_cons_ne s0 c _ _ (Ne.symm hc))]
    rw [ih rest hpre2]

theorem splitOnL_no_contains (sep : List Char) :
    ∀ l, containsL sep l = false → splitOnL sep l = [l] := by
  intro l
  induction l with
  | nil => intro _; rfl
  | cons c cs ih =>
    intro h
    simp only [containsL, Bool.or_eq_false_iff] at h
    rw [splitOnL_cons_nomatch sep c cs h.1, ih h.2]

theorem btfree_no_contains (s0 : Char) (ss : List Char) :
    ∀ l, (∀ c ∈ l, c ≠ s0) → containsL (s0 :: ss) l = false := by
  intro l
  induction l with
  | nil => intro _; rfl
  | cons c cs ih =>
    intro h
    simp only [containsL, Bool.or_eq_false_iff]
    refine ⟨isPrefixOfL_cons_ne s0 c _ _ (Ne.symm (h c (by simp))), ih (fun x hx => h x (by simp [hx]))⟩

theorem isPrefixOfL_bt_btfree (xs l : List Char) (h : ∀ c ∈ l, c ≠ btChar) :
    isPrefixOfL (btChar :: xs) l = false := by
  cases l with
  | nil => rfl
  | cons c t => exact isPrefixOfL_cons_ne btChar c _ _ (Ne.symm (h c (by simp)))

/-- When neither the block body nor the suffix holds a backtick and the
suffix does not begin with `json`, the closing fence region holds no
```` ```json ```` occurrence at all. -/
theorem noJson_no_contains_mid (suf : List Char) :
    ∀ payload, (∀ c ∈ payload, c ≠ btChar) → (∀ c ∈ suf, c ≠ btChar) →
      isPrefixOfL "json".data suf = false →
      containsL fenceJson (payload ++ (fenceMark ++ suf)) = false := by
  intro payload
  induction payload with
  | nil =>
    intro _ hs hj
    have base_eq : containsL fenceJson ([] ++ (fenceMark ++ suf)) =
        (isPrefixOfL "json".data suf ||
          (isPrefixOfL (btChar :: "json".data) suf ||
            (isPrefixOfL (btChar :: btChar :: "json".data) suf ||
              containsL fenceJson suf))) := rfl
    rw [base_eq, hj, isPrefixOfL_bt_btfree _ _ hs, isPrefixOfL_bt_btfree _ _ hs]
    have : containsL fenceJson suf = false := by
      rw [show fenceJson = btChar :: "``json".data from rfl]
      exact btfree_no_contains btChar _ suf hs
    rw [this]
    rfl
  | cons c pl ih =>
    intro hp hs hj
    have hc : c ≠ btChar := hp c (by simp)
    have hpre : isPrefixOfL fenceJson (c :: (pl ++ (fenceMark ++ suf))) = false := by
      rw [show fenceJson = btChar :: "``json".data from rfl]
      exact isPrefixOfL_cons_ne btChar c _ _ (Ne.symm hc)
    rw [show (c :: pl) ++ (fenceMark ++ suf) = c :: (pl ++ (fenceMark ++ suf)) from rfl]
    rw [containsL, hpre, ih (fun x hx => hp x (by simp [hx])) hs hj]
    rfl

/-- `str.strip()` on a newline-wrapped body whose first and last characters
are not whitespace gives back the body. -/
theorem trimL_wrap (l : List Char) (a : Char) (t : List Char) (hl : l = a :: t)
    (ha : isWsChar a = false) (z : Char) (hz : l.getLast? = some z)
    (hzw : isWsChar z = false) :
    trimL ('\n' :: l ++ ['\n']) = l := by
  have h1 : skipWs ('\n' :: l ++ ['\n']) = l ++ ['\n'] := by
    rw [show ('\n' :: l ++ ['\n']) = '\n' :: (l ++ ['\n']) from rfl]
    rw [show skipWs ('\n' :: (l ++ ['\n'])) = skipWs (l ++ ['\n']) from rfl]
    rw [hl]
    rw [show (a :: t) ++ ['\n'] = a :: (t ++ ['\n']) from rfl]
    rw [skipWs, ha]
    simp
  have h2 : (l ++ ['\n']).reverse = '\n' :: l.reverse := by simp
  have h3 : skipWs ('\n' :: l.reverse) = skipWs l.reverse := rfl
  have h4 : skipWs l.reverse = l.reverse := by
    have hrev : l.reverse.head? = some z := by rw [List.head?_reverse]; exact hz
    cases hcase : l.reverse with
    | nil => rfl
    | cons r0 rt =>
      rw [hcase] at hrev
      have : r0 = z := by simpa using hrev
      subst this
      rw [skipWs, hzw]
      simp
  unfold trimL
  rw [h1, h2, h3, h4, List.reverse_reverse]

/-! ### Parsing the rendered plan -/

theorem skipWs_quote (l : List Char) : skipWs ('"' :: l) = '"' :: l := rfl

theorem skipWs_colon (l : List Char) : skipWs (':' :: l) = ':' :: l := rfl

theorem skipWs_comma (l : List Char) : skipWs (',' :: l) = ',' :: l := rfl

theorem skipWs_rbracket (l : List Char) : skipWs (']' :: l) = ']' :: l := rfl

theorem skipWs_rbrace (l : List Char) : skipWs ('\x7d' :: l) = '\x7d' :: l := rfl

theorem parseStrBody_clean :
    ∀ (s : List Char) (rest : List Char), (∀ c ∈ s, cleanChar c = true) →
      parseStrBody (s ++ '"' :: rest) = some (s, rest) := by
  intro s
  induction s with
  | nil => intro rest _; rfl
  | cons c s2 ih =>
    intro rest h
    have hc := h c (by simp)
    simp only [cleanChar, Bool.and_eq_true, decide_eq_true_eq] at hc
    obtain ⟨⟨⟨h32, hq⟩, hbs⟩, _⟩ := hc
    rw [show (c :: s2) ++ '"' :: rest = c :: (s2 ++ '"' :: rest) from rfl]
    rw [parseStrBody, if_neg hq, if_neg hbs, if_neg (by omega : ¬ c.toNat < 32)]
    rw [ih rest (fun x hx => h x (by simp [hx]))]

theorem parseVal_str_clean (s : String) (rest : List Char) (fuel : Nat)
    (h : cleanStr s = true) :
    parseVal (fuel + 1) ('"' :: (s.data ++ '"' :: rest)) = some (.str s, rest) := by
  have hb : parseStrBody (s.data ++ '"' :: rest) = some (s.data, rest) :=
    parseStrBody_clean s.data rest (by simpa [cleanStr, List.all_eq_true] using h)
  have h0 : parseVal (fuel + 1) ('"' :: (s.data ++ '"' :: rest)) =
      (match parseStrBody (s.data ++ '"' :: rest) with
       | some (s2, r) => some (.str (String.mk s2), r)
       | none => none) := rfl
  rw [h0, hb]

theorem parseArrElems_strList :
    ∀ (ss : List String) (s : String) (rest : List Char) (fuel : Nat),
      cleanStr s = true → (∀ x ∈ ss, cleanStr x = true) →
      2 * ss.length + 2 ≤ fuel →
      parseArrElems fuel (renderStr s ++ (renderStrTail ss ++ ']' :: rest)) =
        some ((s :: ss).map JVal.str, rest) := by
  intro ss
  induction ss with
  | nil =>
    intro s rest fuel hs _ hfuel
    obtain ⟨f, rfl⟩ : ∃ f, fuel = f + 1 := ⟨fuel - 1, by omega⟩
    obtain ⟨f2, rfl⟩ : ∃ f2, f = f2 + 1 := ⟨f - 1, by omega⟩
    have hin : renderStr s ++ (renderStrTail [] ++ ']' :: rest) =
        '"' :: (s.data ++ '"' :: ']' :: rest) := by
      simp [renderStrTail, renderStr]
    rw [hin, parseArrElems, parseVal_str_clean s (']' :: rest) f2 hs]
    rfl
  | cons t ts ih =>
    intro s rest fuel hs hall hfuel
    obtain ⟨f, rfl⟩ : ∃ f, fuel = f + 1 := ⟨fuel - 1, by omega⟩
    obtain ⟨f2, hf2⟩ : ∃ f2, f = f2 + 1 := ⟨f - 1, by omega⟩
    have hin : renderStr s ++ (renderStrTail (t :: ts) ++ ']' :: rest) =
        '"' :: (s.data ++ '"' ::
          (',' :: (renderStr t ++ (renderStrTail ts ++ ']' :: rest)))) := by
      simp [renderStrTail, renderStr]
    have hval : parseVal f ('"' :: (s.data ++ '"' ::
        (',' :: (renderStr t ++ (renderStrTail ts ++ ']' :: rest))))) =
        some (.str s, ',' :: (renderStr t ++ (renderStrTail ts ++ ']' :: rest))) := by
      rw [hf2]
      exact parseVal_str_clean s _ f2 hs
    have hstep : parseArrElems (f + 1) ('"' :: (s.data ++ '"' ::
        (',' :: (renderStr t ++ (renderStrTail ts ++ ']' :: rest))))) =
        (match parseArrElems f (renderStr t ++ (renderStrTail ts ++ ']' :: rest)) with
         | some (xs, r2) => some (JVal.str s :: xs, r2)
         | none => none) := by
      rw [parseArrElems, hval]
      rfl
    have hbound : 2 * ts.length + 2 ≤ f := by
      simp only [List.length_cons] at hfuel
      omega
    rw [hin, hstep, ih t rest f (hall t (by simp)) (fun x hx => hall x (by simp [hx])) hbound]
    rfl

theorem parseVal_true_lit (fuel : Nat) (rest : List Char) :
    parseVal (fuel + 1) ("true".data ++ rest) = some (.bool true, rest) := rfl

theorem parseVal_false_lit (fuel : Nat) (rest : List Char) :
    parseVal (fuel + 1) ("false".data ++ rest) = some (.bool false, rest) := rfl

theorem parseVal_strArr (ss : List String) (rest : List Char) (fuel : Nat)
    (hall : ∀ x ∈ ss, cleanStr x = true) (hfuel : 2 * ss.length + 2 ≤ fuel) :
    parseVal (fuel + 1) ('[' :: (renderStrList ss ++ ']' :: rest)) =
      some (.arr (ss.map JVal.str), rest) := by
  cases ss with
  | nil => rfl
  | cons s ts =>
    have h0 : parseVal (fuel + 1) ('[' :: (renderStrList (s :: ts) ++ ']' :: rest)) =
        (match parseArrElems fuel (renderStrList (s :: ts) ++ ']' :: rest) with
         | some (xs, r2) => some (JVal.arr xs, r2)
         | none => none) := rfl
    have hin : renderStrList (s :: ts) ++ ']' :: rest =
        renderStr s ++ (renderStrTail ts ++ ']' :: rest) := by
      simp [renderStrList]
    rw [h0, hin, parseArrElems_strList ts s rest fuel (hall s (by simp))
      (fun x hx => hall x (by simp [hx])) (by simp only [List.length_cons] at hfuel; omega)]

theorem parseObjFields_member (fuel : Nat) (k : String) (V TAIL2 TAIL3 : List Char) (v : JVal)
    (hk : cleanStr k = true)
    (hval : parseVal fuel (V ++ TAIL2) = some (v, TAIL3)) :
    parseObjFields (fuel + 1) (renderKV k V ++ TAIL2) =
      (match skipWs TAIL3 with
       | ',' :: r =>
         match parseObjFields fuel r with
         | some (fs, r2) => some ((k, v) :: fs, r2)
         | none => none
       | '\x7d' :: r => some ([(k, v)], r)
       | _ => none) := by
  have hexp : renderKV k V ++ TAIL2 = '"' :: (k.data ++ '"' :: ':' :: (V ++ TAIL2)) := by
    simp [renderKV]
  have hsb : parseStrBody (k.data ++ '"' :: ':' :: (V ++ TAIL2)) =
      some (k.data, ':' :: (V ++ TAIL2)) :=
    parseStrBody_clean k.data _ (by simpa [cleanStr, List.all_eq_true] using hk)
  have h0 : parseObjFields (fuel + 1) ('"' :: (k.data ++ '"' :: ':' :: (V ++ TAIL2))) =
      (match parseStrBody (k.data ++ '"' :: ':' :: (V ++ TAIL2)) with
       | none => none
       | some (kk, rest2) =>
         match skipWs rest2 with
         | ':' :: rest3 =>
           match parseVal fuel rest3 with
           | none => none
           | some (v2, rest4) =>
             match skipWs rest4 with
             | ',' :: r =>
               match parseObjFields fuel r with
               | some (fs, r2) => some ((String.mk kk, v2) :: fs, r2)
               | none => none
             | '\x7d' :: r => some ([(String.mk kk, v2)], r)
             | _ => none
         | _ => none) := rfl
  rw [hexp, h0, hsb]
  simp only [skipWs_colon, hval]

/-- The value text of the `commands` field. -/
def planV1 (p : CommandPlan) : List Char := '[' :: (renderStrList p.commands ++ [']'])

/-- The value text of the `explanation` field. -/
def planV2 (p : CommandPlan) : List Char := renderStr p.explanation

/-- The value text of the `warnings` field. -/
def planV3 (p : CommandPlan) : List Char := '[' :: (renderStrList p.warnings ++ [']'])

/-- The value text of the `requires_confirmation` field. -/
def planV4 (p : CommandPlan) : List Char :=
  if p.requires_confirmation then "true".data else "false".data

/-- The object body from the fourth member on, closing brace included. -/
def planTail4 (p : CommandPlan) (rest : List Char) : List Char :=
  renderKV "requires_confirmation" (planV4 p) ++ '\x7d' :: rest

/-- The object body from the third member on. -/
def planTail3 (p : CommandPlan) (rest : List Char) : List Char :=
  renderKV "warnings" (planV3 p) ++ ',' :: planTail4 p rest

/-- The object body from the second member on. -/
def planTail2 (p : CommandPlan) (rest : List Char) : List Char :=
  renderKV "explanation" (planV2 p) ++ ',' :: planTail3 p rest

/-- The whole object body after the opening brace. -/
def planBody (p : CommandPlan) (rest : List Char) : List Char :=
  renderKV "commands" (planV1 p) ++ ',' :: planTail2 p rest

theorem renderPlanL_body (p : CommandPlan) (rest : List Char) :
    renderPlanL p ++ rest = '\x7b' :: planBody p rest := by
  simp [renderPlanL, planBody, planTail2, planTail3, planTail4, planV1, planV2, planV3, planV4,
    List.append_assoc]

theorem parseVal_plan (p : CommandPlan) (rest : List Char) (F : Nat)
    (hp : cleanPlan p = true)
    (hfuel : 2 * p.commands.length + 2 * p.warnings.length + 12 ≤ F) :
    parseVal (F + 1) (renderPlanL p ++ rest) = some (.obj (planJsonFields p), rest) := by
  have hp2 := hp
  simp only [cleanPlan, Bool.and_eq_true] at hp2
  obtain ⟨⟨hc, he⟩, hw⟩ := hp2
  have hcall : ∀ x ∈ p.commands, cleanStr x = true := by
    simpa [List.all_eq_true] using hc
  have hwall : ∀ x ∈ p.warnings, cleanStr x = true := by
    simpa [List.all_eq_true] using hw
  obtain ⟨m1, rfl⟩ : ∃ m1, F = m1 + 1 := ⟨F - 1, by omega⟩
  obtain ⟨m2, hm2⟩ : ∃ m2, m1 = m2 + 1 := ⟨m1 - 1, by omega⟩
  obtain ⟨m3, hm3⟩ : ∃ m3, m2 = m3 + 1 := ⟨m2 - 1, by omega⟩
  obtain ⟨m4, hm4⟩ : ∃ m4, m3 = m4 + 1 := ⟨m3 - 1, by omega⟩
  obtain ⟨m5, hm5⟩ : ∃ m5, m4 = m5 + 1 := ⟨m4 - 1, by omega⟩
  -- the four member values
  have hval4 : parseVal m4 (planV4 p ++ '\x7d' :: rest) =
      some (.bool p.requires_confirmation, '\x7d' :: rest) := by
    cases hrc : p.requires_confirmation with
    | false =>
      rw [show planV4 p = "false".data by simp [planV4, hrc], hm5]
      exact parseVal_false_lit m5 _
    | true =>
      rw [show planV4 p = "true".data by simp [planV4, hrc], hm5]
      exact parseVal_true_lit m5 _
  have hval3 : parseVal m3 (planV3 p ++ ',' :: planTail4 p rest) =
      some (.arr (p.warnings.map JVal.str), ',' :: planTail4 p rest) := by
    rw [show planV3 p ++ ',' :: planTail4 p rest =
      '[' :: (renderStrList p.warnings ++ ']' :: (',' :: planTail4 p rest)) by
        simp [planV3, List.append_assoc], hm4]
    exact parseVal_strArr _ _ m4 hwall (by omega)
  have hval2 : parseVal m2 (planV2 p ++ ',' :: planTail3 p rest) =
      some (.str p.explanation, ',' :: planTail3 p rest) := by
    rw [show planV2 p ++ ',' :: planTail3 p rest =
      '"' :: (p.explanation.data ++ '"' :: (',' :: planTail3 p rest)) by
        simp [planV2, renderStr, List.append_assoc], hm3]
    exact parseVal_str_clean _ _ m3 he
  have hval1 : parseVal m1 (planV1 p ++ ',' :: planTail2 p rest) =
      some (.arr (p.commands.map JVal.str), ',' :: planTail2 p rest) := by
    rw [show planV1 p ++ ',' :: planTail2 p rest =
      '[' :: (renderStrList p.commands ++ ']' :: (',' :: planTail2 p rest)) by
        simp [planV1, List.append_assoc], hm2]
    exact parseVal_strArr _ _ m2 hcall (by omega)
  -- the four members, innermost first
  have hstep4 : parseObjFields (m4 + 1) (planTail4 p rest) =
      some ([("requires_confirmation", JVal.bool p.requires_confirmation)], rest) := by
    rw [planTail4, parseObjFields_member m4 "requires_confirmation" (planV4 p)
      ('\x7d' :: rest) ('\x7d' :: rest) (.bool p.requires_confirmation) (by decide) hval4]
    simp only [skipWs_rbrace]
  have hstep3 : parseObjFields (m3 + 1) (planTail3 p rest) =
      some ([("warnings", JVal.arr (p.warnings.map JVal.str)),
             ("requires_confirmation", JVal.bool p.requires_confirmation)], rest) := by
    rw [planTail3, parseObjFields_member m3 "warnings" (planV3 p)
      (',' :: planTail4 p rest) (',' :: planTail4 p rest)
      (.arr (p.warnings.map JVal.str)) (by decide) hval3]
    simp only [skipWs_comma]
    rw [hm4, hstep4]
  have hstep2 : parseObjFields (m2 + 1) (planTail2 p rest) =
      some ([("explanation", JVal.str p.explanation),
             ("warnings", JVal.arr (p.warnings.map JVal.str)),
             ("requires_confirmation", JVal.bool p.requires_confirmation)], rest) := by
    rw [planTail2, parseObjFields_member m2 "explanation" (planV2 p)
      (',' :: planTail3 p rest) (',' :: planTail3 p rest)
      (.str p.explanation) (by decide) hval2]
    simp only [skipWs_comma]
    rw [hm3, hstep3]
  have hstep1 : parseObjFields (m1 + 1) (planBody p rest) =
      some (planJsonFields p, rest) := by
    rw [planBody, parseObjFields_member m1 "commands" (planV1 p)
      (',' :: planTail2 p rest) (',' :: planTail2 p rest)
      (.arr (p.commands.map JVal.str)) (by decide) hval1]
    simp only [skipWs_comma]
    rw [hm2, hstep2]
    rfl
  have h0 : parseVal (m1 + 1 + 1) (renderPlanL p ++ rest) =
      (match parseObjFields (m1 + 1) (planBody p rest) with
       | some (fs, r2) => some (JVal.obj fs, r2)
       | none => none) := by
    rw [renderPlanL_body]
    rfl
  rw [h0, hstep1]

theorem renderStrTail_length (ss : List String) : ss.length ≤ (renderStrTail ss).length := by
  induction ss with
  | nil => simp [renderStrTail]
  | cons t ts ih =>
    simp only [renderStrTail, renderStr, List.length_cons, List.length_append] at ih ⊢
    omega

theorem renderStrList_length (ss : List String) : ss.length ≤ (renderStrList ss).length := by
  cases ss with
  | nil => simp [renderStrList]
  | cons s ts =>
    have := renderStrTail_length ts
    simp only [renderStrList, renderStr, List.length_cons, List.length_append]
    omega

theorem renderPlanL_length (p : CommandPlan) :
    p.commands.length + p.warnings.length + 6 ≤ (renderPlanL p).length := by
  have h1 := renderStrList_length p.commands
  have h2 := renderStrList_length p.warnings
  simp only [renderPlanL, renderKV, List.length_cons, List.length_append]
  omega

theorem jsonParseL_renderPlan (p : CommandPlan) (hp : cleanPlan p = true) :
    jsonParseL (renderPlanL p) = some (.obj (planJsonFields p)) := by
  have hlen := renderPlanL_length p
  have hfuel : 2 * p.commands.length + 2 * p.warnings.length + 12 ≤
      2 * (renderPlanL p).length + 1 := by omega
  have h := parseVal_plan p [] (2 * (renderPlanL p).length + 1) hp hfuel
  rw [List.append_nil] at h
  unfold jsonParseL
  rw [show 2 * (renderPlanL p).length + 2 = (2 * (renderPlanL p).length + 1) + 1 from rfl, h]
  rfl

/-! ### No backticks in the rendered block -/

theorem cleanStr_btfree (s : String) (h : cleanStr s = true) :
    ∀ c ∈ s.data, c ≠ btChar := by
  simp only [cleanStr, List.all_eq_true] at h
  intro c hc
  have h2 := h c hc
  simp only [cleanChar, Bool.and_eq_true, decide_eq_true_eq] at h2
  exact h2.2

theorem renderStr_btfree (s : String) (h : cleanStr s = true) :
    ∀ c ∈ renderStr s, c ≠ btChar := by
  refine List.forall_mem_cons.mpr ⟨by decide, ?_⟩
  exact List.forall_mem_append.mpr ⟨cleanStr_btfree s h, by decide⟩

theorem renderStrTail_btfree (ss : List String) (h : ∀ x ∈ ss, cleanStr x = true) :
    ∀ c ∈ renderStrTail ss, c ≠ btChar := by
  induction ss with
  | nil => intro c hc; simp [renderStrTail] at hc
  | cons t ts ih =>
    refine List.forall_mem_cons.mpr ⟨by decide, ?_⟩
    exact List.forall_mem_append.mpr ⟨renderStr_btfree t (h t (by simp)),
      ih (fun x hx => h x (by simp [hx]))⟩

theorem renderStrList_btfree (ss : List String) (h : ∀ x ∈ ss, cleanStr x = true) :
    ∀ c ∈ renderStrList ss, c ≠ btChar := by
  cases ss with
  | nil => intro c hc; simp [renderStrList] at hc
  | cons s ts =>
    exact List.forall_mem_append.mpr ⟨renderStr_btfree s (h s (by simp)),
      renderStrTail_btfree ts (fun x hx => h x (by simp [hx]))⟩

theorem renderKV_btfree (k : String) (v : List Char) (hk : ∀ c ∈ k.data, c ≠ btChar)
    (hv : ∀ c ∈ v, c ≠ btChar) : ∀ c ∈ renderKV k v, c ≠ btChar := by
  refine List.forall_mem_cons.mpr ⟨by decide, ?_⟩
  refine List.forall_mem_append.mpr ⟨hk, ?_⟩
  refine List.forall_mem_cons.mpr ⟨by decide, ?_⟩
  exact List.forall_mem_cons.mpr ⟨by decide, hv⟩

theorem renderPlanL_btfree (p : CommandPlan) (hp : cleanPlan p = true) :
    ∀ c ∈ renderPlanL p, c ≠ btChar := by
  have hp2 := hp
  simp only [cleanPlan, Bool.and_eq_true] at hp2
  obtain ⟨⟨hc, he⟩, hw⟩ := hp2
  have hcall : ∀ x ∈ p.commands, cleanStr x = true := by simpa [List.all_eq_true] using hc
  have hwall : ∀ x ∈ p.warnings, cleanStr x = true := by simpa [List.all_eq_true] using hw
  have h1 : ∀ c ∈ renderKV "commands" ('[' :: (renderStrList p.commands ++ [']'])),
      c ≠ btChar := by
    refine renderKV_btfree _ _ (by decide) ?_
    refine List.forall_mem_cons.mpr ⟨by decide, ?_⟩
    exact List.forall_mem_append.mpr ⟨renderStrList_btfree _ hcall, by decide⟩
  have h2 : ∀ c ∈ renderKV "explanation" (renderStr p.explanation), c ≠ btChar :=
    renderKV_btfree _ _ (by decide) (renderStr_btfree _ he)
  have h3 : ∀ c ∈ renderKV "warnings" ('[' :: (renderStrList p.warnings ++ [']'])),
      c ≠ btChar := by
    refine renderKV_btfree _ _ (by decide) ?_
    refine List.forall_mem_cons.mpr ⟨by decide, ?_⟩
    exact List.forall_mem_append.mpr ⟨renderStrList_btfree _ hwall, by decide⟩
  have h4 : ∀ c ∈ renderKV "requires_confirmation"
      (if p.requires_confirmation then "true".data else "false".data), c ≠ btChar := by
    refine renderKV_btfree _ _ (by decide) ?_
    cases hrc : p.requires_confirmation
    · rw [if_neg (by simp [hrc])]
      decide
    · rw [if_pos (by simp [hrc])]
      decide
  refine List.forall_mem_cons.mpr ⟨by decide, ?_⟩
  refine List.forall_mem_append.mpr ⟨?_, by decide⟩
  refine List.forall_mem_append.mpr ⟨?_, List.forall_mem_cons.mpr ⟨by decide, h4⟩⟩
  refine List.forall_mem_append.mpr ⟨?_, List.forall_mem_cons.mpr ⟨by decide, h3⟩⟩
  exact List.forall_mem_append.mpr ⟨h1, List.forall_mem_cons.mpr ⟨by decide, h2⟩⟩

theorem isPrefixOfL_eq_true_iff (a : List Char) :
    ∀ l, isPrefixOfL a l = true ↔ ∃ t, l = a ++ t := by
  induction a with
  | nil => intro l; simp [isPrefixOfL]
  | cons x s ih =>
    intro l
    cases l with
    | nil =>
      simp only [isPrefixOfL, List.cons_append]
      constructor
      · intro h; exact absurd h (by simp)
      · rintro ⟨t, ht⟩; exact absurd ht (by simp)
    | cons b t =>
      simp only [isPrefixOfL, Bool.and_eq_true, decide_eq_true_eq]
      constructor
      · rintro ⟨rfl, h2⟩
        obtain ⟨t2, rfl⟩ := (ih t).mp h2
        exact ⟨t2, rfl⟩
      · rintro ⟨t2, heq⟩
        rw [List.cons_append] at heq
        injection heq with hb ht
        exact ⟨hb.symm, (ih t).mpr ⟨t2, ht⟩⟩

/-- The rendered plan ending in its closing brace. -/
theorem renderPlanL_concat (p : CommandPlan) :
    renderPlanL p = ('\x7b' :: (renderKV "commands" ('[' :: (renderStrList p.commands ++ [']'])) ++
      ',' :: renderKV "explanation" (renderStr p.explanation) ++
      ',' :: renderKV "warnings" ('[' :: (renderStrList p.warnings ++ [']'])) ++
      ',' :: renderKV "requires_confirmation"
        (if p.requires_confirmation then "true".data else "false".data))) ++ ['\x7d'] := by
  simp [renderPlanL, List.append_assoc]

theorem fencedBlock_parses (pre suf : List Char) (p : CommandPlan)
    (hpre : ∀ c ∈ pre, c ≠ btChar) (hsuf : ∀ c ∈ suf, c ≠ btChar)
    (hp : cleanPlan p = true) :
    parse_llm_responseL (fencedBlock pre p suf) = some (.obj (planJsonFields p)) := by
  have hpay_bt : ∀ c ∈ ('\n' :: renderPlanL p) ++ ['\n'], c ≠ btChar :=
    List.forall_mem_append.mpr
      ⟨List.forall_mem_cons.mpr ⟨by decide, renderPlanL_btfree p hp⟩, by decide⟩
  have hfj : fenceJson = btChar :: "``json".data := rfl
  have hfm : fenceMark = btChar :: "``".data := rfl
  have hshape : fencedBlock pre p suf =
      pre ++ (fenceJson ++ ((('\n' :: renderPlanL p) ++ ['\n']) ++ (fenceMark ++ suf))) := by
    simp [fencedBlock, List.append_assoc]
  have hcontains : containsL fenceJson (fencedBlock pre p suf) = true := by
    rw [hshape, hfj]
    exact containsL_append_self btChar _ pre _
  have hsplit1 : splitOnL fenceJson (fencedBlock pre p suf) =
      pre :: splitOnL fenceJson
        ((('\n' :: renderPlanL p) ++ ['\n']) ++ (fenceMark ++ suf)) := by
    rw [hshape, hfj]
    exact splitOnL_append_sep btChar _ pre _ hpre
  have hcand : (splitOnL fenceMark ((splitOnL fenceJson
      ((('\n' :: renderPlanL p) ++ ['\n']) ++ (fenceMark ++ suf))).getD 0 [])).getD 0 []
      = ('\n' :: renderPlanL p) ++ ['\n'] := by
    by_cases hjson : isPrefixOfL "json".data suf = true
    · obtain ⟨suf2, rfl⟩ := (isPrefixOfL_eq_true_iff _ suf).mp hjson
      have hre : fenceMark ++ ("json".data ++ suf2) = fenceJson ++ suf2 := by
        rw [show fenceJson = fenceMark ++ "json".data from rfl, List.append_assoc]
      rw [hre, hfj, splitOnL_append_sep btChar _ _ _ hpay_bt]
      simp only [List.getD_cons_zero]
      rw [hfm, splitOnL_no_contains _ _ (btfree_no_contains btChar _ _ hpay_bt)]
      rfl
    · have hnc : containsL fenceJson
          ((('\n' :: renderPlanL p) ++ ['\n']) ++ (fenceMark ++ suf)) = false :=
        noJson_no_contains_mid suf _ hpay_bt hsuf (by simpa using hjson)
      rw [splitOnL_no_contains _ _ hnc]
      simp only [List.getD_cons_zero]
      rw [hfm, splitOnL_append_sep btChar _ _ _ hpay_bt]
      rfl
  have hlast : (renderPlanL p).getLast? = some '\x7d' := by
    rw [renderPlanL_concat]
    exact List.getLast?_concat _
  have htrim : trimL (('\n' :: renderPlanL p) ++ ['\n']) = renderPlanL p :=
    trimL_wrap (renderPlanL p) '\x7b' _ rfl (by decide) '\x7d' hlast (by decide)
  unfold parse_llm_responseL
  rw [if_pos hcontains, hsplit1]
  rw [show (pre :: splitOnL fenceJson
      ((('\n' :: renderPlanL p) ++ ['\n']) ++ (fenceMark ++ suf))).getD 1 [] =
    (splitOnL fenceJson
      ((('\n' :: renderPlanL p) ++ ['\n']) ++ (fenceMark ++ suf))).getD 0 [] from rfl]
  rw [hcand, htrim]
  exact jsonParseL_renderPlan p hp

theorem planFromFields_planJson (p : CommandPlan) :
    planFromFields (planJsonFields p) = p := by
  have hmap : ∀ l : List String, asStringList (.arr (l.map .str)) = l := by
    intro l
    simp only [asStringList, List.map_map]
    rw [show (asString ∘ JVal.str) = id from funext fun s => rfl, List.map_id]
  have h0 : planFromFields (planJsonFields p) =
      ⟨asStringList (.arr (p.commands.map .str)), asString (.str p.explanation),
        asStringList (.arr (p.warnings.map .str)),
        jTruthy (.bool p.requires_confirmation)⟩ := rfl
  rw [h0, hmap, hmap]
  rfl

/-- C6 (amended): for every Command Plan with clean strings (no quotes,
backslashes, control characters or backticks), a model reply that fences
the canonical structured block for the plan — surrounded by arbitrary
backtick-free prose — parses back to exactly the plan's JSON object, and
the field extraction of `_execute_commands` recovers the plan (round
trip).  Moreover, fields absent from any successfully parsed object
default to `explanation = ""`, `warnings = []`,
`requires_confirmation = true`. -/
theorem plan_block_round_trip_and_defaults (pre suf : List Char) (p : CommandPlan)
    (fields : List (String × JVal))
    (hpre : ∀ c ∈ pre, c ≠ btChar) (hsuf : ∀ c ∈ suf, c ≠ btChar)
    (hp : cleanPlan p = true) :
    (parse_llm_response (String.mk (fencedBlock pre p suf)) =
        some (.obj (planJsonFields p)) ∧
      planFromFields (planJsonFields p) = p) ∧
    (lookupLast fields "explanation" = none → (planFromFields fields).explanation = "") ∧
    (lookupLast fields "warnings" = none → (planFromFields fields).warnings = []) ∧
    (lookupLast fields "requires_confirmation" = none →
      (planFromFields fields).requires_confirmation = true) := by
  refine ⟨⟨?_, planFromFields_planJson p⟩, ?_, ?_, ?_⟩
  · show parse_llm_responseL (String.mk (fencedBlock pre p suf)).data = _
    exact fencedBlock_parses pre suf p hpre hsuf hp
  · intro h
    simp [planFromFields, jGetD, h, asString]
  · intro h
    simp [planFromFields, jGetD, h, asStringList]
  · intro h
    simp [planFromFields, jGetD, h, jTruthy]

/-- Fixture: a clean two-command plan. -/
def p0 : CommandPlan :=
  ⟨["ls -la", "df -h"], "lists files then disk usage", ["review first"], true⟩

theorem plan_block_round_trip_and_defaults_witness :
    parse_llm_response (String.mk (fencedBlock "Plan:\n".data p0 " Done.".data)) =
      some (JVal.obj (planJsonFields p0)) ∧
    planFromFields (planJsonFields p0) = p0 ∧
    (planFromFields [("commands", JVal.arr [])]).explanation = "" ∧
    (planFromFields [("commands", JVal.arr [])]).warnings = [] ∧
    (planFromFields [("commands", JVal.arr [])]).requires_confirmation = true := by
  have h := plan_block_round_trip_and_defaults "Plan:\n".data " Done.".data p0
    [("commands", JVal.arr [])] (by decide) (by decide) (by decide)
  exact ⟨h.1.1, h.1.2, h.2.1 rfl, h.2.2.1 rfl, h.2.2.2 rfl⟩

/-- Fixture: a reply holding a malformed labelled fence before a
well-formed one. -/
def c6text : String :=
  "```json x``` ```json\n\x7b\"commands\": [\"ls\"], \"explanation\": \"e\", \"warnings\": [], \"requires_confirmation\": true\x7d\n```"

/-- C6 counterexample: `c6text` contains a well-formed fenced structured
block with all four fields (the second fence; the second conjunct shows
that block parses on its own), yet the parser returns `None` on the whole
text, because the split takes the text after the *first* ```` ```json ````
occurrence.  So the claim does not hold for every text containing a
well-formed block. -/
theorem earlier_fence_shadows_block :
    parse_llm_response c6text = none ∧
    parse_llm_response "```json\n\x7b\"commands\": [\"ls\"], \"explanation\": \"e\", \"warnings\": [], \"requires_confirmation\": true\x7d\n```" =
      some (JVal.obj [("commands", JVal.arr [JVal.str "ls"]),
        ("explanation", JVal.str "e"), ("warnings", JVal.arr []),
        ("requires_confirmation", JVal.bool true)]) := ⟨rfl, rfl⟩

end CanYou
